import Mathlib

/-!
Verification development for a Connect-Four Monte-Carlo tree search engine
(file `pa3.py`).  The game state (`Board`), the tree node (`Node`), the UCB
evaluator (`calculate_ucb`) and the search loop (`run_mcts`) are embedded as
executable Lean functions; randomness is injected as a counter-indexed stream
`f : Nat → Nat`, Python exceptions are modelled by `Option`, and the
transcendental part of the UCB formula is passed in as abstract rational
functions so that everything stays computable.
-/

set_option autoImplicit false

namespace PA3

/-- A cell holds `none` (empty) or `some p` for a piece of player `p`
(players are `1` = Red and `2` = Yellow, as in the source). -/
abbrev Cell := Option Nat

/-- The game state: `board` is a list of columns, each column a list of
cells indexed bottom-up, mirroring `self.board = [[None]*rows]*cols`. -/
structure Board where
  cols : Nat
  rows : Nat
  board : List (List Cell)
  deriving Repr, DecidableEq

/-- Python list indexing: a negative index wraps around from the end,
an index outside `[-len, len)` raises `IndexError` (modelled as `none`). -/
def pyIdx (len : Nat) (i : Int) : Option Nat :=
  if 0 ≤ i then (if i < (len : Int) then some i.toNat else none)
  else (if -(len : Int) ≤ i then some ((len : Int) + i).toNat else none)

/-- Body of the loop in `drop_in_slot`: scan rows `0..rows-1` bottom-up and
place the piece in the first empty cell; if the column is full the loop
falls through and the column is returned unchanged (the Python method
silently returns `None`). -/
def dropCol (rows : Nat) (col : List Cell) (p : Nat) : List Cell :=
  match (List.range rows).find? (fun i => (col.getD i none).isNone) with
  | some i => col.set i (some p)
  | none => col

/-- Body of the loop in `undo_move`: scan rows top-down and clear the first
occupied cell; an empty column is returned unchanged. -/
def undoCol (rows : Nat) (col : List Cell) : List Cell :=
  match ((List.range rows).reverse).find? (fun i => (col.getD i none).isSome) with
  | some i => col.set i none
  | none => col

/-- `Board.drop_in_slot(col, player)`: `col_index = col - 1` is resolved with
Python indexing semantics (so `col = 0` wraps to the last column), then the
piece is dropped into that column.  `none` models the uncaught `IndexError`
for an index outside the wrap range. -/
def Board.drop_in_slot (b : Board) (col : Int) (p : Nat) : Option Board :=
  match pyIdx b.board.length (col - 1) with
  | none => none
  | some ci => some { b with board := b.board.set ci (dropCol b.rows (b.board.getD ci []) p) }

/-- `Board.undo_move(col)`: removes the topmost piece of the resolved column. -/
def Board.undo_move (b : Board) (col : Int) : Option Board :=
  match pyIdx b.board.length (col - 1) with
  | none => none
  | some ci => some { b with board := b.board.set ci (undoCol b.rows (b.board.getD ci [])) }

/-- `Board.is_slot_open(col)`: explicit range check on `col - 1` (no wrap
here, unlike `drop_in_slot`), then tests whether the top cell is empty. -/
def Board.is_slot_open (b : Board) (col : Int) : Bool :=
  let ci := col - 1
  if ci < 0 ∨ (b.cols : Int) ≤ ci then false
  else ((b.board.getD ci.toNat []).getD (b.rows - 1) none).isNone

/-- `Board.get_legal_moves()`: columns `1..cols` whose slot is open,
left to right. -/
def Board.get_legal_moves (b : Board) : List Nat :=
  ((List.range b.cols).filter (fun c : Nat => b.is_slot_open (((c + 1 : Nat) : Int)))).map
    (fun c => c + 1)

/-- `Board.is_full()`: every column's top cell is occupied. -/
def Board.is_full (b : Board) : Bool :=
  (List.range b.cols).all (fun c => ((b.board.getD c []).getD (b.rows - 1) none).isSome)

/-- Cell accessor `self.board[c][r]` (total, via default `none`). -/
def Board.cellAt (b : Board) (c r : Nat) : Cell :=
  (b.board.getD c []).getD r none

/-- `Board._has_win`: does the run of cells contain four consecutive cells
of player `p`?  `cnt` is the running count of the current streak. -/
def hasWinAux (p : Nat) : List Cell → Nat → Bool
  | [], _ => false
  | c :: rest, cnt =>
    if c = some p then (if cnt + 1 = 4 then true else hasWinAux p rest (cnt + 1))
    else hasWinAux p rest 0

def hasWin (p : Nat) (cells : List Cell) : Bool := hasWinAux p cells 0

/-- `Board._check_horizontal`. -/
def Board.check_horizontal (b : Board) (p : Nat) : Bool :=
  (List.range b.rows).any (fun r => hasWin p ((List.range b.cols).map (fun c => b.cellAt c r)))

/-- `Board._check_vertical`. -/
def Board.check_vertical (b : Board) (p : Nat) : Bool :=
  (List.range b.cols).any (fun c => hasWin p (b.board.getD c []))

/-- `Board._check_diagonal_up`. -/
def Board.check_diagonal_up (b : Board) (p : Nat) : Bool :=
  (List.range (b.cols - 3)).any (fun sc =>
    (List.range (b.rows - 3)).any (fun sr =>
      (List.range 4).all (fun i => b.cellAt (sc + i) (sr + i) = some p)))

/-- `Board._check_diagonal_down`: `start_row` ranges over `3..rows-1`,
written here as `k + 3` for `k < rows - 3`. -/
def Board.check_diagonal_down (b : Board) (p : Nat) : Bool :=
  (List.range (b.cols - 3)).any (fun sc =>
    (List.range (b.rows - 3)).any (fun k =>
      (List.range 4).all (fun i => b.cellAt (sc + i) (k + 3 - i) = some p)))

/-- `Board.is_won_by(player)`. -/
def Board.is_won_by (b : Board) (p : Nat) : Bool :=
  b.check_horizontal p || b.check_vertical p || b.check_diagonal_up p || b.check_diagonal_down p

/-- `Board.is_terminal()`. -/
def Board.is_terminal (b : Board) : Bool :=
  b.is_won_by 1 || b.is_won_by 2 || b.is_full

/-- `Board.get_winner()`: `-1` for a Red (player 1) win, `1` for a Yellow
(player 2) win, `0` for a draw, `none` when not terminal. -/
def Board.get_winner (b : Board) : Option Int :=
  if b.is_won_by 1 then some (-1)
  else if b.is_won_by 2 then some 1
  else if b.is_full then some 0
  else none

/-- Well-formedness of the representation: positive dimensions, `cols`
columns, each of length `rows` (this is how `Board.__init__` and the file
loader build the grid). -/
def WF (b : Board) : Prop :=
  0 < b.cols ∧ 0 < b.rows ∧ b.board.length = b.cols ∧
    ∀ c < b.cols, (b.board.getD c []).length = b.rows

instance : DecidablePred WF := fun b => by unfold WF; infer_instance

/-- Number of occupied cells of a column within the playable rows. -/
def colHeight (rows : Nat) (col : List Cell) : Nat :=
  ((List.range rows).filter (fun i => (col.getD i none).isSome)).length

/-- Gravity soundness of one column: the occupied cells are exactly the
rows below the column's height (a contiguous run starting at row 0). -/
def colOk (rows : Nat) (col : List Cell) : Prop :=
  ∀ i < rows, (col.getD i none).isSome = true ↔ i < colHeight rows col

instance (rows : Nat) (col : List Cell) : Decidable (colOk rows col) := by
  unfold colOk; infer_instance

/-- Gravity soundness of the whole board. -/
def gravity (b : Board) : Prop := ∀ c < b.cols, colOk b.rows (b.board.getD c [])

instance : DecidablePred gravity := fun b => by unfold gravity; infer_instance

/-! ## The search tree -/

/-- A tree node (`class Node`): accumulated reward `wi`, visit count `ni`,
and the children dictionary as an insertion-ordered association list.
The `move`/`parent` fields of the Python class are bookkeeping never read
by the algorithm and are omitted. -/
inductive Node where
  | mk (wi : Int) (ni : Nat) (children : List (Nat × Node))

def Node.wi : Node → Int
  | .mk w _ _ => w

def Node.ni : Node → Nat
  | .mk _ n _ => n

def Node.children : Node → List (Nat × Node)
  | .mk _ _ cs => cs

/-- Dictionary key membership `move in node.children`. -/
def hasKey (cs : List (Nat × Node)) (m : Nat) : Bool := cs.any (fun p => p.1 == m)

/-- Dictionary read `node.children[move]`. -/
def lookupChild : List (Nat × Node) → Nat → Option Node
  | [], _ => none
  | (k, c) :: rest, m => if k = m then some c else lookupChild rest m

/-- Dictionary in-place value update (keys and order unchanged). -/
def updateChild : List (Nat × Node) → Nat → Node → List (Nat × Node)
  | [], _, _ => []
  | (k, c) :: rest, m, v => if k = m then (k, v) :: rest else (k, c) :: updateChild rest m v

/-- Sum of the children's visit counts. -/
def sumNi : List (Nat × Node) → Nat
  | [] => 0
  | mc :: rest => mc.2.ni + sumNi rest

mutual

/-- Number of nodes of a tree. -/
def Node.size : Node → Nat
  | .mk _ _ cs => 1 + sizeChildren cs

def sizeChildren : List (Nat × Node) → Nat
  | [] => 0
  | mc :: rest => Node.size mc.2 + sizeChildren rest

end

/-! ## The UCB evaluator -/

/-- A Python float as used by `calculate_ucb`: either an infinity or a
finite value (idealised as a rational). -/
inductive Score where
  | posInf
  | negInf
  | val (x : ℚ)
  deriving Repr, DecidableEq

/-- Strict `>` on such floats. -/
def Score.sgt : Score → Score → Bool
  | .posInf, .posInf => false
  | .posInf, _ => true
  | _, .posInf => false
  | .negInf, _ => false
  | _, .negInf => true
  | .val a, .val b => decide (b < a)

/-- `calculate_ucb(parent_visits, child_wins, child_visits, is_maximizing_player)`.
The transcendental part is abstracted: `sq` stands for `math.sqrt` and `lg`
for `math.log`, injected as arbitrary rational functions so the definition
stays executable; with that reading the body is a direct transcription. -/
def calculate_ucb (sq lg : ℚ → ℚ) (parent_visits : Nat) (child_wins : Int)
    (child_visits : Nat) (is_maximizing_player : Bool) : Score :=
  if child_visits = 0 then
    (if is_maximizing_player then Score.posInf else Score.negInf)
  else
    let exploitation_value : ℚ := (child_wins : ℚ) / (child_visits : ℚ)
    let exploration_bonus : ℚ := (141 / 100 : ℚ) * sq (lg (parent_visits : ℚ) / (child_visits : ℚ))
    if is_maximizing_player then Score.val (exploitation_value + exploration_bonus)
    else Score.val (exploitation_value - exploration_bonus)

/-! ## The search loop (`run_mcts`) -/

/-- `random.choice(l)` driven by the injected stream `f` at counter `k`:
index `f k % l.length` (fails only on an empty list, like the Python call). -/
def choose (f : Nat → Nat) (k : Nat) (l : List Nat) : Option Nat :=
  l.get? (f k % l.length)

/-- The UCT in-tree selection loop over `current_node.children.items()`:
track the best move and best UCB, maximizing for player 2, minimizing for
player 1, first strict improvement wins. -/
def uctSelect (sq lg : ℚ → ℚ) (parent_ni : Nat) (pl : Nat) (cs : List (Nat × Node)) : Option Nat :=
  let init : Option Nat × Score := (none, if pl = 2 then Score.negInf else Score.posInf)
  (cs.foldl (fun acc mc =>
      let u := calculate_ucb sq lg parent_ni mc.2.wi mc.2.ni (pl == 2)
      if pl = 2 then (if u.sgt acc.2 then (some mc.1, u) else acc)
      else (if acc.2.sgt u then (some mc.1, u) else acc)) init).1

/-- Result of one simulation: the updated subtree rooted at the entry node,
the terminal value that was backpropagated, the moves applied to the board
(in order of application, for the undo phase), the board as mutated at the
end of the simulation, and the advanced stream counter. -/
structure SimResult where
  tree : Node
  value : Int
  moves : List Nat
  fboard : Board
  rk : Nat

/-- The rollout phase: random legal moves, alternating the mover, until the
board is terminal; `fuel` bounds the loop, value is `board.get_winner()`. -/
def rollout (f : Nat → Nat) : Nat → Board → Nat → Nat → Option (Int × List Nat × Board × Nat)
  | 0, b, _, k =>
    if b.is_terminal then some ((b.get_winner).getD 0, [], b, k) else none
  | fuel + 1, b, pl, k =>
    if b.is_terminal then some ((b.get_winner).getD 0, [], b, k)
    else
      match choose f k b.get_legal_moves with
      | none => none
      | some m =>
        match b.drop_in_slot (m : Int) pl with
        | none => none
        | some b2 =>
          match rollout f fuel b2 (3 - pl) (k + 1) with
          | none => none
          | some (v, ms, fb, k2) => some (v, m :: ms, fb, k2)

/-- One full simulation (selection, expansion, rollout, backpropagation) of
`run_mcts`, written recursively: descending returns the updated child, and
on the way out each node on the traversal path receives the `+1` visit and
the terminal value, exactly the effect of the source's backprop loop over
`path`.  Failure (`none`) models fuel exhaustion or a Python crash path;
both are shown unreachable in the theorems below. -/
def simulate (f : Nat → Nat) (sq lg : ℚ → ℚ) (use_uct : Bool) :
    Nat → Board → Node → Nat → Nat → Option SimResult
  | 0, b, nd, _, k =>
    if b.is_terminal then
      some ⟨Node.mk (nd.wi + (b.get_winner).getD 0) (nd.ni + 1) nd.children,
        (b.get_winner).getD 0, [], b, k⟩
    else none
  | fuel + 1, b, nd, pl, k =>
    if b.is_terminal then
      some ⟨Node.mk (nd.wi + (b.get_winner).getD 0) (nd.ni + 1) nd.children,
        (b.get_winner).getD 0, [], b, k⟩
    else
      let legal := b.get_legal_moves
      let untried := legal.filter (fun m => !(hasKey nd.children m))
      if untried.isEmpty then
        let sel : Option Nat × Nat :=
          if use_uct then (uctSelect sq lg nd.ni pl nd.children, k)
          else (choose f k legal, k + 1)
        match sel.1 with
        | none => none
        | some m =>
          match b.drop_in_slot (m : Int) pl, lookupChild nd.children m with
          | some b2, some child =>
            match simulate f sq lg use_uct fuel b2 child (3 - pl) sel.2 with
            | none => none
            | some res =>
              some ⟨Node.mk (nd.wi + res.value) (nd.ni + 1) (updateChild nd.children m res.tree),
                    res.value, m :: res.moves, res.fboard, res.rk⟩
          | _, _ => none
      else
        match choose f k untried with
        | none => none
        | some m =>
          match b.drop_in_slot (m : Int) pl with
          | none => none
          | some b2 =>
            match rollout f fuel b2 (3 - pl) (k + 1) with
            | none => none
            | some (v, ms, fb, k2) =>
              some ⟨Node.mk (nd.wi + v) (nd.ni + 1) (nd.children ++ [(m, Node.mk v 1 [])]),
                    v, m :: ms, fb, k2⟩

/-- The undo phase of one simulation:
`for move in reversed(moves_made): board.undo_move(move)`. -/
def undoAll (b : Board) (moves : List Nat) : Option Board :=
  moves.reverse.foldlM (fun bb (m : Nat) => bb.undo_move (m : Int)) b

/-- The main loop `for simulation in range(num_simulations)`, threading the
shared board (mutated and then restored by each simulation) and the shared
root. -/
def runSims (f : Nat → Nat) (sq lg : ℚ → ℚ) (u : Bool) (fuel : Nat) (pl : Nat) :
    Nat → Board → Node → Nat → Option (Board × Node × Nat)
  | 0, b, root, k => some (b, root, k)
  | n + 1, b, root, k =>
    match simulate f sq lg u fuel b root pl k with
    | none => none
    | some res =>
      match undoAll res.fboard res.moves with
      | none => none
      | some b2 => runSims f sq lg u fuel pl n b2 res.tree res.rk

/-- Final move selection at the root: among children with `ni > 0`, the one
with maximal average value for player 2, minimal for player 1 (starting from
an infinite sentinel, first strict improvement wins, insertion order). -/
def bestMove (pl : Nat) (cs : List (Nat × Node)) : Option Nat :=
  let init : Option Nat × Score := (none, if pl = 2 then Score.negInf else Score.posInf)
  (cs.foldl (fun acc mc =>
      if mc.2.ni ≠ 0 then
        let avg : ℚ := (mc.2.wi : ℚ) / (mc.2.ni : ℚ)
        if pl = 2 then (if (Score.val avg).sgt acc.2 then (some mc.1, Score.val avg) else acc)
        else (if acc.2.sgt (Score.val avg) then (some mc.1, Score.val avg) else acc)
      else acc) init).1

/-- `run_mcts(board, player, num_simulations, use_uct, verbose_mode)`:
fresh root, `num_simulations` simulations, then the returned best move
(the verbose stream is a pure side channel and is not modelled).  The
result carries the final state of the shared board and the root so that
the restoration and statistics postconditions can be stated. -/
def run_mcts (f : Nat → Nat) (sq lg : ℚ → ℚ) (use_uct : Bool) (fuel : Nat)
    (b : Board) (player : Nat) (num_simulations : Nat) (k : Nat) :
    Option (Board × Node × Option Nat) :=
  match runSims f sq lg use_uct fuel player num_simulations b (Node.mk 0 0 []) k with
  | none => none
  | some (b2, root, _) => some (b2, root, bestMove player root.children)

/-! ## Generic list lemmas -/

theorem isNone_eq_not_isSome {α : Type _} (o : Option α) : o.isNone = !o.isSome := by
  cases o <;> rfl

theorem getD_set_eq {α : Type _} (l : List α) (i : Nat) (a d : α) (h : i < l.length) :
    (l.set i a).getD i d = a := by
  simp [List.getD_eq_getElem?_getD, List.getElem?_set, h]

theorem getD_set_ne {α : Type _} (l : List α) (i j : Nat) (a d : α) (h : i ≠ j) :
    (l.set i a).getD j d = l.getD j d := by
  simp [List.getD_eq_getElem?_getD, List.getElem?_set, h]

theorem set_getD_self {α : Type _} (l : List α) (i : Nat) (d : α) (h : i < l.length) :
    l.set i (l.getD i d) = l := by
  induction l generalizing i with
  | nil => simp at h
  | cons x xs ih =>
    cases i with
    | zero => simp [List.set, List.getD]
    | succ j =>
      simp only [List.set, List.getD_cons_succ]
      rw [ih j (by simpa using h)]

theorem find?_range'_eq_none (p : Nat → Bool) :
    ∀ (len s : Nat), (∀ i, s ≤ i → i < s + len → p i = false) →
      (List.range' s len).find? p = none := by
  intro len
  induction len with
  | zero => intro s _; rfl
  | succ n ih =>
    intro s h
    rw [List.range'_succ, List.find?_cons_of_neg _ (by simp [h s le_rfl (by omega)])]
    exact ih (s + 1) (fun i h1 h2 => h i (by omega) (by omega))

theorem find?_range'_eq_some (p : Nat → Bool) :
    ∀ (len s h : Nat), s ≤ h → h < s + len → p h = true →
      (∀ i, s ≤ i → i < h → p i = false) → (List.range' s len).find? p = some h := by
  intro len
  induction len with
  | zero => intro s h h1 h2; omega
  | succ n ih =>
    intro s h h1 h2 hp hlt
    rw [List.range'_succ]
    rcases Nat.eq_or_lt_of_le h1 with heq | hlt2
    · subst heq; exact List.find?_cons_of_pos _ hp
    · rw [List.find?_cons_of_neg _ (by simp [hlt s le_rfl hlt2])]
      exact ih (s + 1) h (by omega) (by omega) hp (fun i ha hb => hlt i (by omega) hb)

theorem find?_range_eq_some (p : Nat → Bool) (n h : Nat) (h1 : h < n) (h2 : p h = true)
    (h3 : ∀ i < h, p i = false) : (List.range n).find? p = some h := by
  rw [List.range_eq_range']
  exact find?_range'_eq_some p n 0 h (Nat.zero_le _) (by omega) h2 (fun i _ hb => h3 i hb)

theorem find?_range_eq_none (p : Nat → Bool) (n : Nat) (h : ∀ i < n, p i = false) :
    (List.range n).find? p = none := by
  rw [List.range_eq_range']
  exact find?_range'_eq_none p n 0 (fun i _ hb => h i (by omega))

theorem find?_revrange_eq_some (p : Nat → Bool) :
    ∀ (n h : Nat), h < n → p h = true → (∀ i, h < i → i < n → p i = false) →
      ((List.range n).reverse).find? p = some h := by
  intro n
  induction n with
  | zero => intro h h1; omega
  | succ n ih =>
    intro h h1 hp habove
    rw [List.range_succ, List.reverse_append]
    simp only [List.reverse_singleton, List.singleton_append]
    rcases Nat.eq_or_lt_of_le (Nat.lt_succ_iff.mp h1) with heq | hlt
    · rw [heq] at hp ⊢; exact List.find?_cons_of_pos _ hp
    · rw [List.find?_cons_of_neg _ (by simp [habove n hlt (by omega)])]
      exact ih h hlt hp (fun i ha hb => habove i ha (by omega))

theorem find?_revrange_eq_none (p : Nat → Bool) :
    ∀ (n : Nat), (∀ i < n, p i = false) → ((List.range n).reverse).find? p = none := by
  intro n
  induction n with
  | zero => intro _; rfl
  | succ n ih =>
    intro h
    rw [List.range_succ, List.reverse_append]
    simp only [List.reverse_singleton, List.singleton_append]
    rw [List.find?_cons_of_neg _ (by simp [h n (by omega)])]
    exact ih (fun i hi => h i (by omega))

theorem filter_range_length (p : Nat → Bool) :
    ∀ (n h : Nat), h ≤ n → (∀ i < n, (p i = true ↔ i < h)) →
      ((List.range n).filter p).length = h := by
  intro n
  induction n with
  | zero => intro h hh _; simpa using hh.antisymm (Nat.zero_le _) |>.symm ▸ rfl
  | succ n ih =>
    intro h hh hc
    rw [List.range_succ, List.filter_append, List.length_append]
    by_cases hcase : h = n + 1
    · have hpn : p n = true := (hc n (by omega)).mpr (by omega)
      have h1 : (List.filter p (List.range n)).length = n :=
        ih n le_rfl (fun i hi => ⟨fun _ => hi, fun _ => (hc i (by omega)).mpr (by omega)⟩)
      simp [h1, List.filter, hpn, hcase]
    · have hh2 : h ≤ n := by omega
      have hpn : p n = false := by
        have := hc n (by omega)
        rcases Bool.eq_false_or_eq_true (p n) with ht | hf
        · exact absurd (this.mp ht) (by omega)
        · exact hf
      have h1 : (List.filter p (List.range n)).length = h :=
        ih h hh2 (fun i hi => hc i (by omega))
      simp [h1, List.filter, hpn]

/-! ## Column-level lemmas -/

theorem colHeight_le (rows : Nat) (col : List Cell) : colHeight rows col ≤ rows := by
  have := List.length_filter_le (fun i => (col.getD i none).isSome) (List.range rows)
  unfold colHeight
  simpa [List.length_range] using this

theorem colOk_open_height_lt {rows : Nat} {col : List Cell} (hOk : colOk rows col)
    (hrows : 0 < rows) (hopen : (col.getD (rows - 1) none).isNone = true) :
    colHeight rows col < rows := by
  have hchar := hOk (rows - 1) (by omega)
  rcases Nat.lt_or_ge (colHeight rows col) rows with h | h
  · exact h
  · exfalso
    have : (col.getD (rows - 1) none).isSome = true := hchar.mpr (by omega)
    rw [isNone_eq_not_isSome, this] at hopen
    simp at hopen

theorem dropCol_eq_set {rows : Nat} {col : List Cell} (p : Nat) (hOk : colOk rows col)
    (hlt : colHeight rows col < rows) :
    dropCol rows col p = col.set (colHeight rows col) (some p) := by
  unfold dropCol
  rw [find?_range_eq_some _ _ (colHeight rows col) hlt]
  · have : (col.getD (colHeight rows col) none).isSome = false := by
      rcases Bool.eq_false_or_eq_true ((col.getD (colHeight rows col) none).isSome) with ht | hf
      · exact absurd ((hOk _ hlt).mp ht) (by omega)
      · exact hf
    rw [isNone_eq_not_isSome, this]; rfl
  · intro i hi
    have : (col.getD i none).isSome = true := (hOk i (by omega)).mpr hi
    rw [isNone_eq_not_isSome, this]; rfl

theorem dropCol_eq_self {rows : Nat} {col : List Cell} (p : Nat) (hOk : colOk rows col)
    (hfull : colHeight rows col = rows) : dropCol rows col p = col := by
  unfold dropCol
  rw [find?_range_eq_none]
  intro i hi
  have : (col.getD i none).isSome = true := (hOk i hi).mpr (by omega)
  rw [isNone_eq_not_isSome, this]; rfl

theorem colHeight_set_some {rows : Nat} {col : List Cell} (p : Nat) (hOk : colOk rows col)
    (hlt : colHeight rows col < rows) (hlen : col.length = rows) :
    colHeight rows (col.set (colHeight rows col) (some p)) = colHeight rows col + 1 := by
  apply filter_range_length _ rows _ (by omega)
  intro i hi
  by_cases hcase : i = colHeight rows col
  · subst hcase
    rw [getD_set_eq _ _ _ _ (by omega)]
    simp
  · rw [getD_set_ne _ _ _ _ _ (fun he => hcase he.symm)]
    rw [hOk i hi]
    omega

theorem colOk_set_some {rows : Nat} {col : List Cell} (p : Nat) (hOk : colOk rows col)
    (hlt : colHeight rows col < rows) (hlen : col.length = rows) :
    colOk rows (col.set (colHeight rows col) (some p)) := by
  intro i hi
  rw [colHeight_set_some p hOk hlt hlen]
  by_cases hcase : i = colHeight rows col
  · subst hcase
    rw [getD_set_eq _ _ _ _ (by omega)]
    simp
  · rw [getD_set_ne _ _ _ _ _ (fun he => hcase he.symm), hOk i hi]
    omega

theorem undoCol_eq_set {rows : Nat} {col : List Cell} (hOk : colOk rows col)
    (hpos : 0 < colHeight rows col) :
    undoCol rows col = col.set (colHeight rows col - 1) none := by
  have hle := colHeight_le rows col
  unfold undoCol
  rw [find?_revrange_eq_some _ _ (colHeight rows col - 1) (by omega)
    ((hOk _ (by omega)).mpr (by omega))]
  intro i h1 h2
  rcases Bool.eq_false_or_eq_true ((col.getD i none).isSome) with ht | hf
  · exact absurd ((hOk i h2).mp ht) (by omega)
  · exact hf

theorem undoCol_eq_self {rows : Nat} {col : List Cell} (hOk : colOk rows col)
    (hz : colHeight rows col = 0) : undoCol rows col = col := by
  unfold undoCol
  rw [find?_revrange_eq_none]
  intro i hi
  rcases Bool.eq_false_or_eq_true ((col.getD i none).isSome) with ht | hf
  · exact absurd ((hOk i hi).mp ht) (by omega)
  · exact hf

theorem colHeight_set_none {rows : Nat} {col : List Cell} (hOk : colOk rows col)
    (hpos : 0 < colHeight rows col) (hlen : col.length = rows) :
    colHeight rows (col.set (colHeight rows col - 1) none) = colHeight rows col - 1 := by
  have hle := colHeight_le rows col
  apply filter_range_length _ rows _ (by omega)
  intro i hi
  by_cases hcase : i = colHeight rows col - 1
  · subst hcase
    rw [getD_set_eq _ _ _ _ (by omega)]
    simp
  · rw [getD_set_ne _ _ _ _ _ (fun he => hcase he.symm), hOk i hi]
    omega

theorem colOk_set_none {rows : Nat} {col : List Cell} (hOk : colOk rows col)
    (hpos : 0 < colHeight rows col) (hlen : col.length = rows) :
    colOk rows (col.set (colHeight rows col - 1) none) := by
  have hle := colHeight_le rows col
  intro i hi
  rw [colHeight_set_none hOk hpos hlen]
  by_cases hcase : i = colHeight rows col - 1
  · subst hcase
    rw [getD_set_eq _ _ _ _ (by omega)]
    simp
  · rw [getD_set_ne _ _ _ _ _ (fun he => hcase he.symm), hOk i hi]
    omega

theorem undoCol_dropCol {rows : Nat} {col : List Cell} (p : Nat) (hOk : colOk rows col)
    (hlt : colHeight rows col < rows) (hlen : col.length = rows) :
    undoCol rows (dropCol rows col p) = col := by
  rw [dropCol_eq_set p hOk hlt]
  have hOk2 := colOk_set_some p hOk hlt hlen
  have hh2 := colHeight_set_some p hOk hlt hlen
  rw [undoCol_eq_set hOk2 (by omega), hh2]
  have hstep : colHeight rows col + 1 - 1 = colHeight rows col := by omega
  rw [hstep, List.set_set]
  have hnone : col.getD (colHeight rows col) none = none := by
    rcases hcell : col.getD (colHeight rows col) none with _ | q
    · rfl
    · exfalso
      have : (col.getD (colHeight rows col) none).isSome = true := by rw [hcell]; rfl
      exact absurd ((hOk _ hlt).mp this) (by omega)
  conv_rhs => rw [← set_getD_self col (colHeight rows col) none (by omega)]
  rw [hnone]

theorem dropCol_length (rows : Nat) (col : List Cell) (p : Nat) :
    (dropCol rows col p).length = col.length := by
  unfold dropCol
  split <;> simp

theorem undoCol_length (rows : Nat) (col : List Cell) :
    (undoCol rows col).length = col.length := by
  unfold undoCol
  split <;> simp

/-! ## Board-level lemmas -/

theorem pyIdx_some_lt {len : Nat} {i : Int} {ci : Nat} (h : pyIdx len i = some ci) :
    ci < len := by
  unfold pyIdx at h
  split at h
  · split at h
    · injection h with h2; omega
    · exact absurd h (by simp)
  · split at h
    · injection h with h2; omega
    · exact absurd h (by simp)

theorem pyIdx_nat_eq {len m : Nat} (h1 : 1 ≤ m) (h2 : m ≤ len) :
    pyIdx len ((m : Int) - 1) = some (m - 1) := by
  unfold pyIdx
  rw [if_pos (by omega), if_pos (by omega)]
  congr 1
  omega

theorem mem_legal {b : Board} {m : Nat} (h : m ∈ b.get_legal_moves) :
    1 ≤ m ∧ m ≤ b.cols ∧ b.is_slot_open (m : Int) = true := by
  unfold Board.get_legal_moves at h
  rw [List.mem_map] at h
  obtain ⟨c, hc, rfl⟩ := h
  rw [List.mem_filter, List.mem_range] at hc
  exact ⟨by omega, by omega, hc.2⟩

theorem is_slot_open_eq {b : Board} {m : Nat} (h1 : 1 ≤ m) (h2 : m ≤ b.cols) :
    b.is_slot_open (m : Int) =
      ((b.board.getD (m - 1) []).getD (b.rows - 1) none).isNone := by
  have he : ((m : Int) - 1).toNat = m - 1 := by omega
  simp only [Board.is_slot_open]
  rw [if_neg (by omega), he]

theorem drop_in_slot_legal_eq {b : Board} {m : Nat} (p : Nat) (hWF : WF b)
    (h1 : 1 ≤ m) (h2 : m ≤ b.cols) :
    b.drop_in_slot (m : Int) p =
      some { b with board := b.board.set (m - 1) (dropCol b.rows (b.board.getD (m - 1) []) p) } := by
  have hlen := hWF.2.2.1
  simp only [Board.drop_in_slot]
  rw [pyIdx_nat_eq h1 (by omega)]

theorem undo_move_legal_eq {b : Board} {m : Nat} (hWF : WF b)
    (h1 : 1 ≤ m) (h2 : m ≤ b.cols) :
    b.undo_move (m : Int) =
      some { b with board := b.board.set (m - 1) (undoCol b.rows (b.board.getD (m - 1) [])) } := by
  have hlen := hWF.2.2.1
  simp only [Board.undo_move]
  rw [pyIdx_nat_eq h1 (by omega)]

theorem drop_in_slot_some {b b2 : Board} {col : Int} {p : Nat}
    (h : b.drop_in_slot col p = some b2) :
    ∃ ci, pyIdx b.board.length (col - 1) = some ci ∧
      b2 = { b with board := b.board.set ci (dropCol b.rows (b.board.getD ci []) p) } := by
  unfold Board.drop_in_slot at h
  split at h
  · exact absurd h (by simp)
  · rename_i ci hci
    injection h with h2
    exact ⟨ci, hci, h2.symm⟩

theorem undo_move_some {b b2 : Board} {col : Int}
    (h : b.undo_move col = some b2) :
    ∃ ci, pyIdx b.board.length (col - 1) = some ci ∧
      b2 = { b with board := b.board.set ci (undoCol b.rows (b.board.getD ci [])) } := by
  unfold Board.undo_move at h
  split at h
  · exact absurd h (by simp)
  · rename_i ci hci
    injection h with h2
    exact ⟨ci, hci, h2.symm⟩

theorem WF_drop {b b2 : Board} {col : Int} {p : Nat} (hWF : WF b)
    (h : b.drop_in_slot col p = some b2) : WF b2 := by
  obtain ⟨ci, hci, rfl⟩ := drop_in_slot_some h
  obtain ⟨hc, hr, hlen, hcols⟩ := hWF
  have hcilt : ci < b.board.length := pyIdx_some_lt hci
  refine ⟨hc, hr, by simpa using hlen, ?_⟩
  intro c hclt
  by_cases hcase : c = ci
  · subst hcase
    rw [getD_set_eq _ _ _ _ hcilt, dropCol_length]
    exact hcols c hclt
  · rw [getD_set_ne _ _ _ _ _ (fun he => hcase he.symm)]
    exact hcols c hclt

theorem WF_undo {b b2 : Board} {col : Int} (hWF : WF b)
    (h : b.undo_move col = some b2) : WF b2 := by
  obtain ⟨ci, hci, rfl⟩ := undo_move_some h
  obtain ⟨hc, hr, hlen, hcols⟩ := hWF
  have hcilt : ci < b.board.length := pyIdx_some_lt hci
  refine ⟨hc, hr, by simpa using hlen, ?_⟩
  intro c hclt
  by_cases hcase : c = ci
  · subst hcase
    rw [getD_set_eq _ _ _ _ hcilt, undoCol_length]
    exact hcols c hclt
  · rw [getD_set_ne _ _ _ _ _ (fun he => hcase he.symm)]
    exact hcols c hclt

theorem gravity_drop {b b2 : Board} {col : Int} {p : Nat} (hWF : WF b) (hg : gravity b)
    (h : b.drop_in_slot col p = some b2) : gravity b2 := by
  obtain ⟨ci, hci, rfl⟩ := drop_in_slot_some h
  have hcilt : ci < b.board.length := pyIdx_some_lt hci
  have hcicols : ci < b.cols := by rw [← hWF.2.2.1]; exact hcilt
  intro c hclt
  by_cases hcase : c = ci
  · subst hcase
    rw [getD_set_eq _ _ _ _ hcilt]
    have hOk : colOk b.rows (b.board.getD c []) := hg c hcicols
    have hlen2 : (b.board.getD c []).length = b.rows := hWF.2.2.2 c hcicols
    rcases Nat.lt_or_ge (colHeight b.rows (b.board.getD c [])) b.rows with hlt | hge
    · rw [dropCol_eq_set p hOk hlt]
      exact colOk_set_some p hOk hlt hlen2
    · rw [dropCol_eq_self p hOk ((colHeight_le _ _).antisymm hge)]
      exact hOk
  · rw [getD_set_ne _ _ _ _ _ (fun he => hcase he.symm)]
    exact hg c hclt

theorem gravity_undo {b b2 : Board} {col : Int} (hWF : WF b) (hg : gravity b)
    (h : b.undo_move col = some b2) : gravity b2 := by
  obtain ⟨ci, hci, rfl⟩ := undo_move_some h
  have hcilt : ci < b.board.length := pyIdx_some_lt hci
  have hcicols : ci < b.cols := by rw [← hWF.2.2.1]; exact hcilt
  intro c hclt
  by_cases hcase : c = ci
  · subst hcase
    rw [getD_set_eq _ _ _ _ hcilt]
    have hOk : colOk b.rows (b.board.getD c []) := hg c hcicols
    have hlen2 : (b.board.getD c []).length = b.rows := hWF.2.2.2 c hcicols
    rcases Nat.eq_zero_or_pos (colHeight b.rows (b.board.getD c [])) with hz | hpos
    · rw [undoCol_eq_self hOk hz]
      exact hOk
    · rw [undoCol_eq_set hOk hpos]
      exact colOk_set_none hOk hpos hlen2
  · rw [getD_set_ne _ _ _ _ _ (fun he => hcase he.symm)]
    exact hg c hclt

/-- LIFO inverse: undoing a just-applied legal move restores the board. -/
theorem undo_move_drop {b b2 : Board} {m p : Nat} (hWF : WF b) (hg : gravity b)
    (hm : m ∈ b.get_legal_moves) (h : b.drop_in_slot (m : Int) p = some b2) :
    b2.undo_move (m : Int) = some b := by
  obtain ⟨h1, h2, hopen⟩ := mem_legal hm
  have hWF2 : WF b2 := WF_drop hWF h
  have hlenb : b.board.length = b.cols := hWF.2.2.1
  have hcolen : (b.board.getD (m - 1) []).length = b.rows := hWF.2.2.2 (m - 1) (by omega)
  have hOk : colOk b.rows (b.board.getD (m - 1) []) := hg (m - 1) (by omega)
  have hlt : colHeight b.rows (b.board.getD (m - 1) []) < b.rows := by
    apply colOk_open_height_lt hOk hWF.2.1
    rw [is_slot_open_eq h1 h2] at hopen
    exact hopen
  rw [drop_in_slot_legal_eq p hWF h1 h2] at h
  injection h with h
  subst h
  rw [undo_move_legal_eq hWF2 h1 h2]
  congr 1
  have hgd : (b.board.set (m - 1) (dropCol b.rows (b.board.getD (m - 1) []) p)).getD (m - 1) []
      = dropCol b.rows (b.board.getD (m - 1) []) p :=
    getD_set_eq _ _ _ _ (by omega)
  have hV : (b.board.set (m - 1) (dropCol b.rows (b.board.getD (m - 1) []) p)).set (m - 1)
        (undoCol b.rows
          ((b.board.set (m - 1) (dropCol b.rows (b.board.getD (m - 1) []) p)).getD (m - 1) []))
      = b.board := by
    rw [hgd, undoCol_dropCol p hOk hlt hcolen, List.set_set]
    exact set_getD_self _ _ _ (by omega)
  rw [hV]

/-! ## Move traces and the undo phase -/

/-- The sequence of moves one simulation applies to the shared board: each
move is legal at the moment it is played and the mover alternates. -/
inductive LegalTrace : Board → Nat → List Nat → Board → Prop where
  | nil (b : Board) (pl : Nat) : LegalTrace b pl [] b
  | cons {b b2 b3 : Board} {pl m : Nat} {ms : List Nat} :
      m ∈ b.get_legal_moves → b.drop_in_slot (m : Int) pl = some b2 →
      LegalTrace b2 (3 - pl) ms b3 → LegalTrace b pl (m :: ms) b3

theorem legalTrace_wf_gravity {b pl ms b3} (t : LegalTrace b pl ms b3) :
    WF b → gravity b → WF b3 ∧ gravity b3 := by
  induction t with
  | nil => exact fun h1 h2 => ⟨h1, h2⟩
  | cons hm hd _ ih =>
    intro hWF hg
    exact ih (WF_drop hWF hd) (gravity_drop hWF hg hd)

/-- The undo phase restores the board that a legal trace started from. -/
theorem undoAll_trace {b pl ms b3} (t : LegalTrace b pl ms b3) :
    WF b → gravity b → undoAll b3 ms = some b := by
  induction t with
  | nil => intro _ _; rfl
  | cons hm hd t2 ih =>
    intro hWF hg
    rename_i b b2 b3 pl m ms
    have hWF2 := WF_drop hWF hd
    have hg2 := gravity_drop hWF hg hd
    have hih := ih hWF2 hg2
    unfold undoAll at hih ⊢
    rw [List.reverse_cons, List.foldlM_append, hih]
    simp only [Option.bind_eq_bind, Option.some_bind, List.foldlM_cons, List.foldlM_nil]
    rw [undo_move_drop hWF hg hm hd]
    rfl

/-! ## Association-list lemmas for the children dictionary -/

theorem hasKey_iff {cs : List (Nat × Node)} {m : Nat} :
    hasKey cs m = true ↔ ∃ c, (m, c) ∈ cs := by
  unfold hasKey
  rw [List.any_eq_true]
  constructor
  · rintro ⟨⟨k, c⟩, hmem, he⟩
    simp only [beq_iff_eq] at he
    subst he
    exact ⟨c, hmem⟩
  · rintro ⟨c, hmem⟩
    exact ⟨(m, c), hmem, by simp⟩

theorem lookupChild_mem {cs : List (Nat × Node)} {m : Nat} {c : Node}
    (h : lookupChild cs m = some c) : (m, c) ∈ cs := by
  induction cs with
  | nil => simp [lookupChild] at h
  | cons x rest ih =>
    obtain ⟨k, v⟩ := x
    unfold lookupChild at h
    split at h
    · rename_i heq
      injection h with h
      subst heq; subst h
      exact List.mem_cons_self _ _
    · exact List.mem_cons_of_mem _ (ih h)

theorem updateChild_map_fst (cs : List (Nat × Node)) (m : Nat) (v : Node) :
    (updateChild cs m v).map Prod.fst = cs.map Prod.fst := by
  induction cs with
  | nil => rfl
  | cons x rest ih =>
    obtain ⟨k, c⟩ := x
    unfold updateChild
    split
    · simp
    · simpa using ih

theorem updateChild_mem {cs : List (Nat × Node)} {m m2 : Nat} {v c2 : Node}
    (h : (m2, c2) ∈ updateChild cs m v) : (m2, c2) ∈ cs ∨ (m2 = m ∧ c2 = v) := by
  induction cs with
  | nil => simp [updateChild] at h
  | cons x rest ih =>
    obtain ⟨k, c⟩ := x
    unfold updateChild at h
    split at h
    · rename_i heq
      rcases List.mem_cons.mp h with he | hrest
      · right
        injection he with he1 he2
        exact ⟨by omega, he2⟩
      · exact Or.inl (List.mem_cons_of_mem _ hrest)
    · rcases List.mem_cons.mp h with he | hrest
      · exact Or.inl (he ▸ List.mem_cons_self _ _)
      · rcases ih hrest with h1 | h2
        · exact Or.inl (List.mem_cons_of_mem _ h1)
        · exact Or.inr h2

theorem sumNi_append (cs1 cs2 : List (Nat × Node)) :
    sumNi (cs1 ++ cs2) = sumNi cs1 + sumNi cs2 := by
  induction cs1 with
  | nil => simp [sumNi]
  | cons x rest ih => simp [sumNi, ih]; omega

theorem sumNi_updateChild {cs : List (Nat × Node)} {m : Nat} {c v : Node}
    (h : lookupChild cs m = some c) :
    sumNi (updateChild cs m v) + c.ni = sumNi cs + v.ni := by
  induction cs with
  | nil => simp [lookupChild] at h
  | cons x rest ih =>
    obtain ⟨k, c0⟩ := x
    unfold lookupChild at h
    unfold updateChild
    split at h
    · rename_i heq
      injection h with h
      subst h
      rw [if_pos heq]
      simp [sumNi]
      omega
    · rename_i hne
      rw [if_neg hne]
      simp [sumNi]
      have := ih h
      omega

theorem sizeChildren_append (cs1 cs2 : List (Nat × Node)) :
    sizeChildren (cs1 ++ cs2) = sizeChildren cs1 + sizeChildren cs2 := by
  induction cs1 with
  | nil => simp [sizeChildren]
  | cons x rest ih => simp [sizeChildren, ih]; omega

theorem sizeChildren_updateChild {cs : List (Nat × Node)} {m : Nat} {c v : Node}
    (h : lookupChild cs m = some c) :
    sizeChildren (updateChild cs m v) + Node.size c = sizeChildren cs + Node.size v := by
  induction cs with
  | nil => simp [lookupChild] at h
  | cons x rest ih =>
    obtain ⟨k, c0⟩ := x
    unfold lookupChild at h
    unfold updateChild
    split at h
    · rename_i heq
      injection h with h
      subst h
      rw [if_pos heq]
      simp [sizeChildren]
      omega
    · rename_i hne
      rw [if_neg hne]
      simp [sizeChildren]
      have := ih h
      omega

/-! ## Tree invariants -/

/-- Structural soundness of a subtree relative to the board state and the
mover at its node: the children keys are distinct, each child key is a legal
move there, and each child subtree is sound for the board after that move.
Because every simulation starts from the same (restored) shared board, this
is an invariant of the whole search. -/
inductive TreeOK : Board → Nat → Node → Prop where
  | mk {b : Board} {pl : Nat} {wi : Int} {ni : Nat} {cs : List (Nat × Node)} :
      (cs.map Prod.fst).Nodup →
      (∀ m c, (m, c) ∈ cs → m ∈ b.get_legal_moves) →
      (∀ m c b2, (m, c) ∈ cs → b.drop_in_slot (m : Int) pl = some b2 → TreeOK b2 (3 - pl) c) →
      TreeOK b pl (Node.mk wi ni cs)

/-- Per-node visit accounting for nodes below the root: a node at a
terminal position never has children; a childless node at a non-terminal
position has been visited exactly once (the simulation that created it);
a node with children satisfies the `1 + sum` discipline. -/
inductive NodeC : Board → Nat → Node → Prop where
  | mk {b : Board} {pl : Nat} {wi : Int} {ni : Nat} {cs : List (Nat × Node)} :
      (b.is_terminal = true → cs = []) →
      (b.is_terminal = false → cs = [] → ni = 1) →
      (b.is_terminal = false → cs ≠ [] → ni = 1 + sumNi cs) →
      (∀ m c b2, (m, c) ∈ cs → b.drop_in_slot (m : Int) pl = some b2 → NodeC b2 (3 - pl) c) →
      NodeC b pl (Node.mk wi ni cs)

/-- Visit accounting for all proper descendants of a node. -/
def ChildrenC (b : Board) (pl : Nat) (nd : Node) : Prop :=
  ∀ m c b2, (m, c) ∈ nd.children → b.drop_in_slot (m : Int) pl = some b2 → NodeC b2 (3 - pl) c

/-- Reachability inside the search tree: `InTree b pl nd b3 pl3 nd3` says
the node `nd3`, with associated board position `b3` and mover `pl3`, lies on
a child path below `nd` (whose position is `b` with mover `pl`). -/
inductive InTree : Board → Nat → Node → Board → Nat → Node → Prop where
  | refl (b : Board) (pl : Nat) (nd : Node) : InTree b pl nd b pl nd
  | step {b : Board} {pl : Nat} {nd : Node} {m : Nat} {c : Node} {b2 b3 : Board}
      {pl3 : Nat} {nd3 : Node} :
      (m, c) ∈ nd.children → b.drop_in_slot (m : Int) pl = some b2 →
      InTree b2 (3 - pl) c b3 pl3 nd3 → InTree b pl nd b3 pl3 nd3

theorem treeOK_inTree {b pl nd b3 pl3 nd3} (ht : InTree b pl nd b3 pl3 nd3) :
    TreeOK b pl nd → TreeOK b3 pl3 nd3 := by
  induction ht with
  | refl => exact id
  | step hmem hdrop _ ih =>
    intro hOk
    cases hOk with
    | mk hnd hleg hch =>
      exact ih (hch _ _ _ hmem hdrop)

/-! ## Per-simulation facts -/

theorem bool_tf {x : Bool} (h1 : x = true) (h2 : x = false) : False := by
  rw [h1] at h2
  exact absurd h2 (by decide)

theorem choose_mem {f : Nat → Nat} {k : Nat} {l : List Nat} {m : Nat}
    (h : choose f k l = some m) : m ∈ l := by
  unfold choose at h
  exact List.get?_mem h

theorem size_mk (w : Int) (n : Nat) (cs : List (Nat × Node)) :
    Node.size (Node.mk w n cs) = 1 + sizeChildren cs := by
  rw [Node.size]

theorem treeOK_remk {b : Board} {pl : Nat} {w : Int} {n : Nat} {cs : List (Nat × Node)}
    {w2 : Int} {n2 : Nat} (h : TreeOK b pl (Node.mk w n cs)) :
    TreeOK b pl (Node.mk w2 n2 cs) := by
  cases h with
  | mk hnd hleg hch => exact TreeOK.mk hnd hleg hch

theorem nodeC_leaf (b : Board) (pl : Nat) (v : Int) : NodeC b pl (Node.mk v 1 []) :=
  NodeC.mk (fun _ => rfl) (fun _ _ => rfl) (fun _ hne => absurd rfl hne)
    (fun _ _ _ hm => absurd hm (by simp))

theorem treeOK_leaf (b : Board) (pl : Nat) (w : Int) (n : Nat) :
    TreeOK b pl (Node.mk w n []) :=
  TreeOK.mk (by simp) (fun _ _ hm => absurd hm (by simp)) (fun _ _ _ hm => absurd hm (by simp))

theorem hasKey_false_not_keys {cs : List (Nat × Node)} {m : Nat} (h : hasKey cs m = false) :
    m ∉ cs.map Prod.fst := by
  intro hmem
  rw [List.mem_map] at hmem
  obtain ⟨x, hx, he⟩ := hmem
  have h2 : hasKey cs m = true := hasKey_iff.mpr ⟨x.2, by rw [← he]; exact hx⟩
  rw [h] at h2
  exact absurd h2 (by decide)

theorem foldl_sel_mem (g : (Option Nat × Score) → (Nat × Node) → Option Nat × Score)
    (hg : ∀ acc mc, (g acc mc).1 = acc.1 ∨ (g acc mc).1 = some mc.1) :
    ∀ (cs : List (Nat × Node)) (acc : Option Nat × Score) (m : Nat),
      (cs.foldl g acc).1 = some m → acc.1 = some m ∨ ∃ c, (m, c) ∈ cs := by
  intro cs
  induction cs with
  | nil => intro acc m h; exact Or.inl h
  | cons x rest ih =>
    intro acc m h
    rcases ih (g acc x) m h with h2 | h2
    · rcases hg acc x with h3 | h3
      · exact Or.inl (h3 ▸ h2)
      · rw [h3] at h2
        injection h2 with h2
        exact Or.inr ⟨x.2, by rw [← h2]; exact List.mem_cons_self _ _⟩
    · obtain ⟨c, hc⟩ := h2
      exact Or.inr ⟨c, List.mem_cons_of_mem _ hc⟩

theorem uctSelect_mem {sq lg : ℚ → ℚ} {pn pl : Nat} {cs : List (Nat × Node)} {m : Nat}
    (h : uctSelect sq lg pn pl cs = some m) : ∃ c, (m, c) ∈ cs := by
  unfold uctSelect at h
  have hg : ∀ (acc : Option Nat × Score) (mc : Nat × Node),
      ((fun (acc : Option Nat × Score) (mc : Nat × Node) =>
        let u := calculate_ucb sq lg pn mc.2.wi mc.2.ni (pl == 2)
        if pl = 2 then (if u.sgt acc.2 then (some mc.1, u) else acc)
        else (if acc.2.sgt u then (some mc.1, u) else acc)) acc mc).1 = acc.1 ∨
      ((fun (acc : Option Nat × Score) (mc : Nat × Node) =>
        let u := calculate_ucb sq lg pn mc.2.wi mc.2.ni (pl == 2)
        if pl = 2 then (if u.sgt acc.2 then (some mc.1, u) else acc)
        else (if acc.2.sgt u then (some mc.1, u) else acc)) acc mc).1 = some mc.1 := by
    intro acc mc
    dsimp only
    split
    · split
      · exact Or.inr rfl
      · exact Or.inl rfl
    · split
      · exact Or.inr rfl
      · exact Or.inl rfl
  rcases foldl_sel_mem _ hg cs _ m h with h2 | h2
  · exact absurd h2 (by simp)
  · exact h2

/-- Everything one successful simulation guarantees about its result:
rollout reaches a terminal board whose winner value is what gets
backpropagated, the node gains exactly one visit, at most one node is
created, the moves made form a legal trace, and the structural and
counting invariants are preserved. -/
structure SimOK (b : Board) (pl : Nat) (nd : Node) (res : SimResult) : Prop where
  fterm : res.fboard.is_terminal = true
  fval : res.value = (res.fboard.get_winner).getD 0
  hni : res.tree.ni = nd.ni + 1
  hwi : res.tree.wi = nd.wi + res.value
  hsize : Node.size res.tree ≤ Node.size nd + 1
  hterm : b.is_terminal = true →
    res.tree.children = nd.children ∧ res.moves = [] ∧ res.fboard = b
  hinv : WF b → TreeOK b pl nd →
    LegalTrace b pl res.moves res.fboard ∧ TreeOK b pl res.tree ∧
      (b.is_terminal = false → sumNi res.tree.children = sumNi nd.children + 1) ∧
      (ChildrenC b pl nd → ChildrenC b pl res.tree) ∧
      (NodeC b pl nd → NodeC b pl res.tree)

theorem simOK_base {b : Board} {nd : Node} {pl k : Nat} (ht : b.is_terminal = true) :
    SimOK b pl nd ⟨Node.mk (nd.wi + (b.get_winner).getD 0) (nd.ni + 1) nd.children,
      (b.get_winner).getD 0, [], b, k⟩ := by
  obtain ⟨w, n, cs⟩ := nd
  refine ⟨ht, rfl, rfl, rfl, ?_, fun _ => ⟨rfl, rfl, rfl⟩, ?_⟩
  · simp only [Node.children, size_mk]
    omega
  · intro hWF hOk
    refine ⟨LegalTrace.nil b pl, treeOK_remk hOk, ?_, ?_, ?_⟩
    · intro hf; exact (bool_tf ht hf).elim
    · intro hcc; exact hcc
    · intro hnc
      cases hnc with
      | mk n1 n2 n3 n4 =>
        exact NodeC.mk n1 (fun hf => (bool_tf ht hf).elim) (fun hf => (bool_tf ht hf).elim) n4

theorem rollout_ok (f : Nat → Nat) :
    ∀ (fuel : Nat) (b : Board) (pl k : Nat) (v : Int) (ms : List Nat) (fb : Board) (k2 : Nat),
      rollout f fuel b pl k = some (v, ms, fb, k2) →
      LegalTrace b pl ms fb ∧ fb.is_terminal = true ∧ v = (fb.get_winner).getD 0 := by
  intro fuel
  induction fuel with
  | zero =>
    intro b pl k v ms fb k2 h
    simp only [rollout] at h
    split at h
    · rename_i hterm
      simp only [Option.some.injEq, Prod.mk.injEq] at h
      obtain ⟨hv, hms, hfb, hk⟩ := h
      subst hv; subst hms; subst hfb
      exact ⟨LegalTrace.nil b pl, hterm, rfl⟩
    · exact absurd h (by simp)
  | succ n ih =>
    intro b pl k v ms fb k2 h
    simp only [rollout] at h
    split at h
    · rename_i hterm
      simp only [Option.some.injEq, Prod.mk.injEq] at h
      obtain ⟨hv, hms, hfb, hk⟩ := h
      subst hv; subst hms; subst hfb
      exact ⟨LegalTrace.nil b pl, hterm, rfl⟩
    · split at h
      · exact absurd h (by simp)
      · rename_i m hch
        split at h
        · exact absurd h (by simp)
        · rename_i b2 hdr
          split at h
          · exact absurd h (by simp)
          · rename_i v4 ms4 fb4 k4 hrec
            simp only [Option.some.injEq, Prod.mk.injEq] at h
            obtain ⟨hv, hms, hfb, hk⟩ := h
            subst hv; subst hms; subst hfb
            obtain ⟨ht4, hterm4, hval4⟩ := ih b2 (3 - pl) (k + 1) v4 ms4 fb4 k4 hrec
            exact ⟨LegalTrace.cons (choose_mem hch) hdr ht4, hterm4, hval4⟩

/-- The master lemma: every successful simulation satisfies `SimOK`. -/
theorem simulate_ok (f : Nat → Nat) (sq lg : ℚ → ℚ) (u : Bool) :
    ∀ (fuel : Nat) (b : Board) (nd : Node) (pl k : Nat) (res : SimResult),
      simulate f sq lg u fuel b nd pl k = some res → SimOK b pl nd res := by
  intro fuel
  induction fuel with
  | zero =>
    intro b nd pl k res h
    simp only [simulate] at h
    split at h
    · rename_i hterm
      injection h with h
      subst h
      exact simOK_base hterm
    · exact absurd h (by simp)
  | succ n ih =>
    intro b nd pl k res h
    obtain ⟨nwi, nni, cs⟩ := nd
    simp only [simulate, Node.wi, Node.ni, Node.children] at h
    split at h
    · rename_i hterm
      injection h with h
      subst h
      exact simOK_base hterm
    · rename_i hterm0
      have hterm : b.is_terminal = false := by
        rcases Bool.eq_false_or_eq_true b.is_terminal with ht | hf
        · exact absurd ht hterm0
        · exact hf
      split at h
      · -- fully expanded: descend into an existing child
        split at h
        · exact absurd h (by simp)
        · rename_i m hsel
          split at h
          · rename_i b2 child hdrop hlk
            split at h
            · exact absurd h (by simp)
            · rename_i res2 hrec
              injection h with h
              subst h
              have IH := ih b2 child (3 - pl) _ res2 hrec
              have e1 := sizeChildren_updateChild (v := res2.tree) hlk
              have e3 := IH.hni
              refine ⟨IH.fterm, IH.fval, rfl, rfl, ?_, ?_, ?_⟩
              · have e2 := IH.hsize
                simp only [size_mk]
                omega
              · intro hc
                exact (bool_tf hc hterm).elim
              · intro hWF hOk
                cases hOk with
                | mk hnd hleg hch =>
                  have hmemChild : (m, child) ∈ cs := lookupChild_mem hlk
                  have hmleg : m ∈ b.get_legal_moves := hleg m child hmemChild
                  have hTreeChild := hch m child b2 hmemChild hdrop
                  have hWF2 := WF_drop hWF hdrop
                  obtain ⟨trace2, treeok2, sum2, childc2, nodec2⟩ := IH.hinv hWF2 hTreeChild
                  have e4 := sumNi_updateChild (v := res2.tree) hlk
                  refine ⟨LegalTrace.cons hmleg hdrop trace2, ?_, ?_, ?_, ?_⟩
                  · refine TreeOK.mk ?_ ?_ ?_
                    · rw [updateChild_map_fst]
                      exact hnd
                    · intro m2 c2 hmem2
                      simp only [Node.children] at hmem2
                      rcases updateChild_mem hmem2 with hold | ⟨he1, he2⟩
                      · exact hleg m2 c2 hold
                      · subst he1
                        exact hmleg
                    · intro m2 c2 b2x hmem2 hdrop2
                      simp only [Node.children] at hmem2
                      rcases updateChild_mem hmem2 with hold | ⟨he1, he2⟩
                      · exact hch m2 c2 b2x hold hdrop2
                      · subst he1; subst he2
                        rw [hdrop] at hdrop2
                        injection hdrop2 with he3
                        subst he3
                        exact treeok2
                  · intro _
                    simp only [Node.children]
                    omega
                  · intro hcc m2 c2 b2x hmem2 hdrop2
                    simp only [ChildrenC, Node.children] at hmem2 ⊢
                    rcases updateChild_mem hmem2 with hold | ⟨he1, he2⟩
                    · exact hcc m2 c2 b2x hold hdrop2
                    · subst he1; subst he2
                      rw [hdrop] at hdrop2
                      injection hdrop2 with he3
                      subst he3
                      exact nodec2 (hcc m2 child b2 hmemChild hdrop)
                  · intro hnc
                    cases hnc with
                    | mk n1 n2 n3 n4 =>
                      have hcsne : cs ≠ [] := by
                        intro he
                        rw [he] at hmemChild
                        simp at hmemChild
                      refine NodeC.mk ?_ ?_ ?_ ?_
                      · intro hc
                        exact (bool_tf hc hterm).elim
                      · intro _ hup
                        exfalso
                        have hmape : cs.map Prod.fst = [] := by
                          rw [← updateChild_map_fst cs m res2.tree, hup]
                          rfl
                        exact hcsne (List.map_eq_nil_iff.mp hmape)
                      · intro _ _
                        have e5 := n3 hterm hcsne
                        omega
                      · intro m2 c2 b2x hmem2 hdrop2
                        rcases updateChild_mem hmem2 with hold | ⟨he1, he2⟩
                        · exact n4 m2 c2 b2x hold hdrop2
                        · subst he1; subst he2
                          rw [hdrop] at hdrop2
                          injection hdrop2 with he3
                          subst he3
                          exact nodec2 (n4 m2 child b2 hmemChild hdrop)
          · exact absurd h (by simp)
      · -- untried move exists: expansion plus rollout
        split at h
        · exact absurd h (by simp)
        · rename_i m hch
          split at h
          · exact absurd h (by simp)
          · rename_i b2 hdrop
            split at h
            · exact absurd h (by simp)
            · rename_i v ms4 fb4 k4 hrol
              injection h with h
              subst h
              obtain ⟨trace4, hterm4, hval4⟩ :=
                rollout_ok f n b2 (3 - pl) (k + 1) v ms4 fb4 k4 hrol
              have hmem_untried := choose_mem hch
              rw [List.mem_filter] at hmem_untried
              obtain ⟨hmleg, hkey⟩ := hmem_untried
              have hkey2 : hasKey cs m = false := by
                rcases Bool.eq_false_or_eq_true (hasKey cs m) with ht | hf
                · rw [ht] at hkey
                  exact absurd hkey (by decide)
                · exact hf
              refine ⟨hterm4, hval4, rfl, rfl, ?_, ?_, ?_⟩
              · simp only [size_mk, sizeChildren_append, sizeChildren]
                omega
              · intro hc
                exact (bool_tf hc hterm).elim
              · intro hWF hOk
                cases hOk with
                | mk hnd hleg hch2 =>
                  refine ⟨LegalTrace.cons hmleg hdrop trace4, ?_, ?_, ?_, ?_⟩
                  · refine TreeOK.mk ?_ ?_ ?_
                    · rw [List.map_append]
                      rw [List.nodup_append]
                      refine ⟨hnd, List.nodup_singleton m, ?_⟩
                      intro a ha hb
                      simp at hb
                      subst hb
                      exact hasKey_false_not_keys hkey2 ha
                    · intro m2 c2 hmem2
                      simp only [Node.children] at hmem2
                      rcases List.mem_append.mp hmem2 with hold | hnew
                      · exact hleg m2 c2 hold
                      · simp at hnew
                        obtain ⟨he1, he2⟩ := hnew
                        subst he1
                        exact hmleg
                    · intro m2 c2 b2x hmem2 hdrop2
                      simp only [Node.children] at hmem2
                      rcases List.mem_append.mp hmem2 with hold | hnew
                      · exact hch2 m2 c2 b2x hold hdrop2
                      · simp at hnew
                        obtain ⟨he1, he2⟩ := hnew
                        subst he1
                        subst he2
                        exact treeOK_leaf _ _ _ _
                  · intro _
                    simp only [Node.children, sumNi_append, sumNi, Node.ni]
                  · intro hcc m2 c2 b2x hmem2 hdrop2
                    simp only [ChildrenC, Node.children] at hmem2 ⊢
                    rcases List.mem_append.mp hmem2 with hold | hnew
                    · exact hcc m2 c2 b2x hold hdrop2
                    · simp at hnew
                      obtain ⟨he1, he2⟩ := hnew
                      subst he1
                      subst he2
                      exact nodeC_leaf _ _ _
                  · intro hnc
                    cases hnc with
                    | mk n1 n2 n3 n4 =>
                      refine NodeC.mk ?_ ?_ ?_ ?_
                      · intro hc
                        exact (bool_tf hc hterm).elim
                      · intro _ hup
                        exact absurd hup (by simp)
                      · intro _ _
                        rw [sumNi_append]
                        by_cases hcs : cs = []
                        · have := n2 hterm hcs
                          subst hcs
                          simp [sumNi, Node.ni]
                          omega
                        · have := n3 hterm hcs
                          simp [sumNi, Node.ni]
                          omega
                      · intro m2 c2 b2x hmem2 hdrop2
                        rcases List.mem_append.mp hmem2 with hold | hnew
                        · exact n4 m2 c2 b2x hold hdrop2
                        · simp at hnew
                          obtain ⟨he1, he2⟩ := hnew
                          subst he1
                          subst he2
                          exact nodeC_leaf _ _ _

/-! ## The simulation loop -/

/-- Root-level invariant carried across the simulations of one `run_mcts`
call, `s` being the number of simulations run so far: the root has one
visit per simulation; the tree is structurally sound against the shared
board; all proper descendants obey the visit accounting; when the root
position is non-terminal every simulation descended into exactly one child,
and when it is terminal no child was ever created. -/
def RunInv (b : Board) (pl s : Nat) (root : Node) : Prop :=
  root.ni = s ∧ TreeOK b pl root ∧ ChildrenC b pl root ∧
    (b.is_terminal = false → sumNi root.children = s) ∧
    (b.is_terminal = true → root.children = [])

theorem runInv_init (b : Board) (pl : Nat) : RunInv b pl 0 (Node.mk 0 0 []) :=
  ⟨rfl, treeOK_leaf _ _ _ _, fun _ _ _ hm => absurd hm (by simp [Node.children]),
    fun _ => rfl, fun _ => rfl⟩

theorem runSims_ok (f : Nat → Nat) (sq lg : ℚ → ℚ) (u : Bool) (fuel pl : Nat) :
    ∀ (n : Nat) (b : Board) (root : Node) (k s : Nat) (out : Board × Node × Nat),
      WF b → gravity b → RunInv b pl s root →
      runSims f sq lg u fuel pl n b root k = some out →
      out.1 = b ∧ RunInv b pl (s + n) out.2.1 ∧ Node.size out.2.1 ≤ Node.size root + n := by
  intro n
  induction n with
  | zero =>
    intro b root k s out hWF hg hInv h
    simp only [runSims] at h
    injection h with h
    subst h
    exact ⟨rfl, hInv, Nat.le_refl _⟩
  | succ n2 ih =>
    intro b root k s out hWF hg hInv h
    simp only [runSims] at h
    split at h
    · exact absurd h (by simp)
    · rename_i res hsim
      split at h
      · exact absurd h (by simp)
      · rename_i b2 hundo
        have SOK := simulate_ok f sq lg u fuel b root pl k res hsim
        obtain ⟨hni, hTree, hCC, hsum, hterm⟩ := hInv
        obtain ⟨trace, treeok2, sum2, childc2, _⟩ := SOK.hinv hWF hTree
        have hb2 : b = b2 := by
          have hu := undoAll_trace trace hWF hg
          rw [hu] at hundo
          exact Option.some.inj hundo
        subst hb2
        have hInv2 : RunInv b pl (s + 1) res.tree := by
          refine ⟨by rw [SOK.hni, hni], treeok2, childc2 hCC, ?_, ?_⟩
          · intro hf
            rw [sum2 hf, hsum hf]
          · intro ht
            obtain ⟨hch, _, _⟩ := SOK.hterm ht
            rw [hch]
            exact hterm ht
        have hrest := ih b res.tree res.rk (s + 1) out hWF hg hInv2 h
        have hstep : s + 1 + n2 = s + (n2 + 1) := by omega
        have hsz := SOK.hsize
        refine ⟨hrest.1, ?_, ?_⟩
        · rw [← hstep]
          exact hrest.2.1
        · have := hrest.2.2
          omega

/-- On an already-terminal board every simulation degenerates to
backpropagating `get_winner` into the root alone; computed exactly. -/
theorem simulate_terminal (f : Nat → Nat) (sq lg : ℚ → ℚ) (u : Bool) (fuel : Nat)
    {b : Board} (nd : Node) (pl k : Nat) (ht : b.is_terminal = true) :
    simulate f sq lg u fuel b nd pl k =
      some ⟨Node.mk (nd.wi + (b.get_winner).getD 0) (nd.ni + 1) nd.children,
        (b.get_winner).getD 0, [], b, k⟩ := by
  cases fuel <;> simp [simulate, ht]

theorem runSims_terminal (f : Nat → Nat) (sq lg : ℚ → ℚ) (u : Bool) (fuel pl : Nat)
    {b : Board} (ht : b.is_terminal = true) :
    ∀ (n : Nat) (root : Node) (k : Nat),
      runSims f sq lg u fuel pl n b root k =
        some (b, Node.mk (root.wi + (n : Int) * ((b.get_winner).getD 0))
          (root.ni + n) root.children, k) := by
  intro n
  induction n with
  | zero =>
    intro root k
    obtain ⟨w, nn, cs⟩ := root
    simp [runSims, Node.wi, Node.ni, Node.children]
  | succ n2 ih =>
    intro root k
    obtain ⟨w, nn, cs⟩ := root
    have hsim := simulate_terminal f sq lg u fuel (Node.mk w nn cs) pl k ht
    simp only [Node.wi, Node.ni, Node.children] at hsim
    simp only [runSims]
    rw [hsim]
    refine Eq.trans (ih (Node.mk (w + (b.get_winner).getD 0) (nn + 1) cs) k) ?_
    simp only [Node.wi, Node.ni, Node.children]
    have harith : w + (b.get_winner).getD 0 + (n2 : Int) * (b.get_winner).getD 0
        = w + ((n2 + 1 : Nat) : Int) * (b.get_winner).getD 0 := by
      push_cast
      ring
    rw [harith, show nn + 1 + n2 = nn + (n2 + 1) by omega]

/-- Size bound along the simulation loop, with no side conditions. -/
theorem runSims_size (f : Nat → Nat) (sq lg : ℚ → ℚ) (u : Bool) (fuel pl : Nat) :
    ∀ (n : Nat) (b : Board) (root : Node) (k : Nat) (out : Board × Node × Nat),
      runSims f sq lg u fuel pl n b root k = some out →
      Node.size out.2.1 ≤ Node.size root + n := by
  intro n
  induction n with
  | zero =>
    intro b root k out h
    simp only [runSims] at h
    injection h with h
    subst h
    exact Nat.le_refl _
  | succ n2 ih =>
    intro b root k out h
    simp only [runSims] at h
    split at h
    · exact absurd h (by simp)
    · rename_i res hsim
      split at h
      · exact absurd h (by simp)
      · rename_i b2 hundo
        have h1 := (simulate_ok f sq lg u fuel b root pl k res hsim).hsize
        have h2 := ih b2 res.tree res.rk out h
        omega

/-! ## Concrete inputs shared by the witnesses and counterexamples -/

/-- A fixed random stream: always picks index 0. -/
def cF : Nat → Nat := fun _ => 0

/-- A stand-in for the transcendental functions (irrelevant in PMCGS mode). -/
def cQ : ℚ → ℚ := fun _ => 0

/-- A 1-column, 1-row empty board. -/
def B11 : Board := ⟨1, 1, [[none]]⟩

/-- A 1-column, 1-row full (drawn) board. -/
def B11full : Board := ⟨1, 1, [[some 1]]⟩

/-- A 1-column, 4-row board already won by player 1 (vertical four). -/
def B14win : Board := ⟨1, 4, [[some 1, some 1, some 1, some 1]]⟩

/-- A 1-column, 3-row empty board. -/
def B13 : Board := ⟨1, 3, [[none, none, none]]⟩

/-- A 1-column, 2-row board of height 1. -/
def B21half : Board := ⟨1, 2, [[some 1, none]]⟩

/-- The root produced by two PMCGS simulations on `B11`. -/
def rootW : Node := Node.mk 0 2 [(1, Node.mk 0 2 [])]

/-! ## C1 — reward perspective of the backpropagated value -/

/-- Modelled from the spec: the conversion of a terminal winner to a scalar
reward "from the searching player's fixed perspective: `+1` if the player
who invoked `search` wins, `-1` if the opponent wins, `0` on a draw". -/
def specReward (searcher : Nat) (b : Board) : Int :=
  if b.is_won_by searcher then 1
  else if b.is_won_by (3 - searcher) then -1
  else 0

/-- C1 (counterexample): on a board already won by player 1, a search
invoked *by player 1* backpropagates `-1` into the root, while the claimed
searching-player perspective demands `+1`. -/
theorem c1_counterexample :
    run_mcts cF cQ cQ false 1 B14win 1 1 0 = some (B14win, Node.mk (-1) 1 [], none) ∧
      specReward 1 B14win = 1 ∧ ((-1 : Int) ≠ 1) :=
  ⟨by rfl, by decide, by decide⟩

/-- C1 (amended): the scalar reward backpropagated along the traversal path
by every simulation is computed from a fixed global perspective — `-1` when
player 1 (Red) wins the rollout's terminal position, `+1` when player 2
(Yellow) wins, `0` on a draw — regardless of which player invoked the
search (the player argument `pl` is arbitrary and absent from the value). -/
theorem c1_amended (f : Nat → Nat) (sq lg : ℚ → ℚ) (u : Bool) (fuel : Nat)
    (b : Board) (nd : Node) (pl k : Nat) (res : SimResult)
    (h : simulate f sq lg u fuel b nd pl k = some res) :
    res.fboard.is_terminal = true ∧
      res.value = (if res.fboard.is_won_by 1 then (-1 : Int)
        else if res.fboard.is_won_by 2 then 1 else 0) ∧
      res.tree.wi = nd.wi + res.value ∧ res.tree.ni = nd.ni + 1 := by
  have SOK := simulate_ok f sq lg u fuel b nd pl k res h
  have hv : ∀ b2 : Board, ((b2.get_winner).getD 0)
      = (if b2.is_won_by 1 then (-1 : Int) else if b2.is_won_by 2 then 1 else 0) := by
    intro b2
    by_cases h1 : b2.is_won_by 1 = true
    · simp [Board.get_winner, h1]
    · by_cases h2 : b2.is_won_by 2 = true
      · simp [Board.get_winner, h1, h2]
      · by_cases h3 : b2.is_full = true
        · simp [Board.get_winner, h1, h2, h3]
        · simp [Board.get_winner, h1, h2, h3]
  exact ⟨SOK.fterm, by rw [SOK.fval, hv], SOK.hwi, SOK.hni⟩

/-- C1 (witness): the amended theorem applied to one concrete simulation. -/
theorem c1_amended_witness :
    simulate cF cQ cQ false 1 B11 (Node.mk 0 0 []) 1 0
        = some ⟨Node.mk 0 1 [(1, Node.mk 0 1 [])], 0, [1], ⟨1, 1, [[some 1]]⟩, 1⟩ ∧
      ((⟨Node.mk 0 1 [(1, Node.mk 0 1 [])], 0, [1], ⟨1, 1, [[some 1]]⟩, 1⟩ :
          SimResult).fboard.is_terminal = true ∧
        (⟨Node.mk 0 1 [(1, Node.mk 0 1 [])], 0, [1], ⟨1, 1, [[some 1]]⟩, 1⟩ :
          SimResult).value =
          (if (⟨Node.mk 0 1 [(1, Node.mk 0 1 [])], 0, [1], ⟨1, 1, [[some 1]]⟩, 1⟩ :
            SimResult).fboard.is_won_by 1 then (-1 : Int)
          else if (⟨Node.mk 0 1 [(1, Node.mk 0 1 [])], 0, [1], ⟨1, 1, [[some 1]]⟩, 1⟩ :
            SimResult).fboard.is_won_by 2 then 1 else 0) ∧
        (⟨Node.mk 0 1 [(1, Node.mk 0 1 [])], 0, [1], ⟨1, 1, [[some 1]]⟩, 1⟩ :
          SimResult).tree.wi = (Node.mk 0 0 []).wi +
          (⟨Node.mk 0 1 [(1, Node.mk 0 1 [])], 0, [1], ⟨1, 1, [[some 1]]⟩, 1⟩ :
            SimResult).value ∧
        (⟨Node.mk 0 1 [(1, Node.mk 0 1 [])], 0, [1], ⟨1, 1, [[some 1]]⟩, 1⟩ :
          SimResult).tree.ni = (Node.mk 0 0 []).ni + 1) :=
  ⟨by rfl, c1_amended cF cQ cQ false 1 B11 (Node.mk 0 0 []) 1 0 _ (by rfl)⟩

/-! ## C2 — behaviour of `drop_in_slot` on full and open columns -/

/-- C2 (counterexample): dropping into a full in-range column does not fail
with any error — it succeeds and leaves the board unchanged. -/
theorem c2_counterexample :
    B11full.is_slot_open 1 = false ∧ B11full.drop_in_slot 1 2 = some B11full :=
  ⟨by rfl, by rfl⟩

/-- C2 (amended): for an in-range column, `drop_in_slot` on a full column
silently returns the board unchanged (no `IllegalMove` error exists in the
code); on an open column it places the piece at the column's current height
(the lowest empty cell). -/
theorem c2_amended (b : Board) (p c : Nat) (hWF : WF b) (hg : gravity b)
    (h1 : 1 ≤ c) (h2 : c ≤ b.cols) :
    (b.is_slot_open (c : Int) = false → b.drop_in_slot (c : Int) p = some b) ∧
    (b.is_slot_open (c : Int) = true →
      colHeight b.rows (b.board.getD (c - 1) []) < b.rows ∧
      (b.board.getD (c - 1) []).getD (colHeight b.rows (b.board.getD (c - 1) [])) none
        = none ∧
      (∀ i < colHeight b.rows (b.board.getD (c - 1) []),
        ((b.board.getD (c - 1) []).getD i none).isSome = true) ∧
      b.drop_in_slot (c : Int) p = some (Board.mk b.cols b.rows (b.board.set (c - 1)
        ((b.board.getD (c - 1) []).set
          (colHeight b.rows (b.board.getD (c - 1) [])) (some p))))) := by
  have hOk : colOk b.rows (b.board.getD (c - 1) []) := hg (c - 1) (by omega)
  have hlen : (b.board.getD (c - 1) []).length = b.rows := hWF.2.2.2 (c - 1) (by omega)
  constructor
  · intro hclosed
    rw [is_slot_open_eq h1 h2] at hclosed
    have hfull : colHeight b.rows (b.board.getD (c - 1) []) = b.rows := by
      have hle := colHeight_le b.rows (b.board.getD (c - 1) [])
      rcases Nat.lt_or_ge (colHeight b.rows (b.board.getD (c - 1) [])) b.rows with hlt | hge
      · exfalso
        have htop : ((b.board.getD (c - 1) []).getD (b.rows - 1) none).isSome = false := by
          rcases Bool.eq_false_or_eq_true
              (((b.board.getD (c - 1) []).getD (b.rows - 1) none).isSome) with ht | hf
          · exact absurd ((hOk (b.rows - 1) (by omega)).mp ht) (by omega)
          · exact hf
        rw [isNone_eq_not_isSome, htop] at hclosed
        exact absurd hclosed (by decide)
      · omega
    rw [drop_in_slot_legal_eq p hWF h1 h2, dropCol_eq_self p hOk hfull]
    congr 1
    rw [set_getD_self _ _ _ (by rw [hWF.2.2.1]; omega)]
  · intro hopen
    rw [is_slot_open_eq h1 h2] at hopen
    have hlt : colHeight b.rows (b.board.getD (c - 1) []) < b.rows :=
      colOk_open_height_lt hOk hWF.2.1 hopen
    refine ⟨hlt, ?_, ?_, ?_⟩
    · rcases hcell : (b.board.getD (c - 1) []).getD
          (colHeight b.rows (b.board.getD (c - 1) [])) none with _ | q
      · rfl
      · exfalso
        have hs : ((b.board.getD (c - 1) []).getD
            (colHeight b.rows (b.board.getD (c - 1) [])) none).isSome = true := by
          rw [hcell]
          rfl
        exact absurd ((hOk _ hlt).mp hs) (by omega)
    · intro i hi
      exact (hOk i (by omega)).mpr hi
    · rw [drop_in_slot_legal_eq p hWF h1 h2, dropCol_eq_set p hOk hlt]

/-- C2 (witness): the amended theorem applied to an open and an (absent
here) full column on a concrete half-filled board. -/
theorem c2_amended_witness :
    WF B21half ∧ gravity B21half ∧ (1 ≤ 1 ∧ 1 ≤ B21half.cols) ∧
      ((B21half.is_slot_open 1 = false → B21half.drop_in_slot 1 2 = some B21half) ∧
      (B21half.is_slot_open 1 = true →
        colHeight B21half.rows (B21half.board.getD 0 []) < B21half.rows ∧
        (B21half.board.getD 0 []).getD
          (colHeight B21half.rows (B21half.board.getD 0 [])) none = none ∧
        (∀ i < colHeight B21half.rows (B21half.board.getD 0 []),
          ((B21half.board.getD 0 []).getD i none).isSome = true) ∧
        B21half.drop_in_slot 1 2 = some (Board.mk B21half.cols B21half.rows
          (B21half.board.set 0 ((B21half.board.getD 0 []).set
            (colHeight B21half.rows (B21half.board.getD 0 [])) (some 2)))))) :=
  ⟨by decide, by decide, ⟨by decide, by decide⟩,
    c2_amended B21half 2 1 (by decide) (by decide) (by decide) (by decide)⟩

/-! ## C3 — the board is restored after every search call -/

/-- C3: after `run_mcts` returns, the shared board is identical to the
board the call started from — every move applied during selection,
expansion and rollout has been undone.  Holds for every well-formed,
gravity-sound board, every budget, every policy, and every random stream. -/
theorem c3_board_restored (f : Nat → Nat) (sq lg : ℚ → ℚ) (u : Bool) (fuel : Nat)
    (b : Board) (pl n k : Nat) (b2 : Board) (root : Node) (mv : Option Nat)
    (hWF : WF b) (hg : gravity b)
    (h : run_mcts f sq lg u fuel b pl n k = some (b2, root, mv)) : b2 = b := by
  unfold run_mcts at h
  split at h
  · exact absurd h (by simp)
  · rename_i bx rootx kx hrun
    have hout := runSims_ok f sq lg u fuel pl n b (Node.mk 0 0 []) k 0 (bx, rootx, kx)
      hWF hg (runInv_init b pl) hrun
    injection h with h
    rw [Prod.mk.injEq, Prod.mk.injEq] at h
    obtain ⟨hb, hr, hm⟩ := h
    rw [← hb]
    exact hout.1

/-- C3 (witness): a concrete two-simulation search on `B11` returns the
board unchanged. -/
theorem c3_witness :
    WF B11 ∧ gravity B11 ∧
      run_mcts cF cQ cQ false 5 B11 1 2 0 = some (B11, rootW, some 1) ∧ B11 = B11 :=
  ⟨by decide, by decide, by rfl,
    c3_board_restored cF cQ cQ false 5 B11 1 2 0 B11 rootW (some 1)
      (by decide) (by decide) (by rfl)⟩

/-! ## C4 — visit conservation -/

/-- C4 (counterexample): after two PMCGS simulations on the non-terminal
board `B11`, the root — a node through which both rollouts passed — has
`ni = 2` while `1 + sum(children ni) = 3`, and its child (whose position is
terminal) has `ni = 2` with no children, so `ni ≠ 1 + sum` there as well;
the claimed identity fails for both. -/
theorem c4_counterexample :
    run_mcts cF cQ cQ false 5 B11 1 2 0 = some (B11, rootW, some 1) ∧
      rootW.ni = 2 ∧
      rootW.ni ≠ 1 + sumNi rootW.children ∧
      (Node.mk 0 2 []).ni ≠ 1 + sumNi (Node.mk 0 2 []).children :=
  ⟨by rfl, by rfl, by decide, by decide⟩

/-- C4 (amended): after a search with budget `n` on a non-terminal board,
the root's visit count equals `n` and equals the *sum* of its children's
visit counts (not `1 + sum`: the root is never the expanded leaf of a
simulation).  Every proper descendant obeys `NodeC`: a node at a terminal
position never has children (its visits may exceed one with no children
beneath), a childless node at a non-terminal position has exactly one
visit, and a node with children has `ni = 1 + sum(children ni)` — the
claimed identity restricted to nodes with children expanded beneath them. -/
theorem c4_amended (f : Nat → Nat) (sq lg : ℚ → ℚ) (u : Bool) (fuel : Nat)
    (b : Board) (pl n k : Nat) (b2 : Board) (root : Node) (mv : Option Nat)
    (hWF : WF b) (hg : gravity b) (hnt : b.is_terminal = false)
    (h : run_mcts f sq lg u fuel b pl n k = some (b2, root, mv)) :
    root.ni = n ∧ sumNi root.children = n ∧ ChildrenC b pl root := by
  unfold run_mcts at h
  split at h
  · exact absurd h (by simp)
  · rename_i bx rootx kx hrun
    have hout := runSims_ok f sq lg u fuel pl n b (Node.mk 0 0 []) k 0 (bx, rootx, kx)
      hWF hg (runInv_init b pl) hrun
    injection h with h
    rw [Prod.mk.injEq, Prod.mk.injEq] at h
    obtain ⟨hb, hr, hm⟩ := h
    obtain ⟨hni, hTree, hCC, hsum, hterm⟩ := hout.2.1
    rw [← hr]
    exact ⟨by rw [hni]; omega, by rw [hsum hnt]; omega, hCC⟩

/-- C4 (witness): the amended theorem applied to the concrete
two-simulation search on `B11`. -/
theorem c4_amended_witness :
    WF B11 ∧ gravity B11 ∧ B11.is_terminal = false ∧
      run_mcts cF cQ cQ false 5 B11 1 2 0 = some (B11, rootW, some 1) ∧
      (rootW.ni = 2 ∧ sumNi rootW.children = 2 ∧ ChildrenC B11 1 rootW) :=
  ⟨by decide, by decide, by rfl, by rfl,
    c4_amended cF cQ cQ false 5 B11 1 2 0 B11 rootW (some 1)
      (by decide) (by decide) (by rfl) (by rfl)⟩

/-! ## C5 — at most one node created per simulation -/

/-- C5: across a budget of `n` simulations the tree (root included) never
holds more than `1 + n` nodes — each simulation creates at most one node,
so at most `n` nodes besides the root are ever created. -/
theorem c5_expansion_bound (f : Nat → Nat) (sq lg : ℚ → ℚ) (u : Bool) (fuel : Nat)
    (b : Board) (pl n k : Nat) (b2 : Board) (root : Node) (mv : Option Nat)
    (h : run_mcts f sq lg u fuel b pl n k = some (b2, root, mv)) :
    Node.size root ≤ 1 + n := by
  unfold run_mcts at h
  split at h
  · exact absurd h (by simp)
  · rename_i bx rootx kx hrun
    have hsz := runSims_size f sq lg u fuel pl n b (Node.mk 0 0 []) k (bx, rootx, kx) hrun
    injection h with h
    rw [Prod.mk.injEq, Prod.mk.injEq] at h
    obtain ⟨hb, hr, hm⟩ := h
    dsimp only at hsz
    rw [← hr]
    have h1 : Node.size (Node.mk 0 0 []) = 1 := by
      rw [size_mk]
      rfl
    rw [h1] at hsz
    omega

/-- C5 (witness): the bound applied to the concrete two-simulation search
(the tree has exactly 2 nodes ≤ 1 + 2). -/
theorem c5_witness :
    run_mcts cF cQ cQ false 5 B11 1 2 0 = some (B11, rootW, some 1) ∧
      Node.size rootW ≤ 1 + 2 :=
  ⟨by rfl, c5_expansion_bound cF cQ cQ false 5 B11 1 2 0 B11 rootW (some 1) (by rfl)⟩

/-! ## C6 — the UCB evaluator -/

/-- Modelled from the spec: "if child visits = 0, score is `+infinity` when
the node to move is the maximizing player, `-infinity` when minimizing;
otherwise `score = (childTotalReward / childVisits) ± C * sqrt(ln(parentVisits)
/ childVisits)`, with `+` when maximizing and `-` when minimizing, `C = 1.41`"
(with `1.41 = 141/100` and `sqrt`/`ln` the same abstract rational functions
given to the code). -/
def ucb_spec (sq lg : ℚ → ℚ) (parent_visits : Nat) (child_wins : Int)
    (child_visits : Nat) (is_max : Bool) : Score :=
  if child_visits = 0 then (if is_max then Score.posInf else Score.negInf)
  else
    if is_max then
      Score.val ((child_wins : ℚ) / (child_visits : ℚ)
        + (141 / 100 : ℚ) * sq (lg (parent_visits : ℚ) / (child_visits : ℚ)))
    else
      Score.val ((child_wins : ℚ) / (child_visits : ℚ)
        - (141 / 100 : ℚ) * sq (lg (parent_visits : ℚ) / (child_visits : ℚ)))

/-- C6: for every parent visit count, child total reward, child visit count
and maximizing flag, `calculate_ucb` returns exactly the value the spec
describes: the signed infinity on zero visits and the signed
exploitation-plus-exploration formula otherwise. -/
theorem c6_ucb_formula (sq lg : ℚ → ℚ) (parent_visits : Nat) (child_wins : Int)
    (child_visits : Nat) (is_max : Bool) :
    calculate_ucb sq lg parent_visits child_wins child_visits is_max
      = ucb_spec sq lg parent_visits child_wins child_visits is_max := by
  by_cases h0 : child_visits = 0 <;> by_cases hm : is_max = true <;>
    simp [calculate_ucb, ucb_spec, h0, hm]

/-! ## C7 — search on a terminal board or with zero budget -/

/-- C7 (counterexample): `run_mcts` called with budget 0, and called on a
full (drawn) board, does not fail with any error — it returns normally
with an absent recommended move (`none`), exactly the silent default the
claim rules out. -/
theorem c7_counterexample :
    run_mcts cF cQ cQ false 5 B11 1 0 0 = some (B11, Node.mk 0 0 [], none) ∧
      run_mcts cF cQ cQ false 5 B11full 1 3 0 = some (B11full, Node.mk 0 3 [], none) :=
  ⟨by rfl, by rfl⟩

/-- C7 (amended): on a terminal board or with budget 0 the search returns
normally: the board is unchanged, the root never acquires children (each
degenerate simulation backpropagates `get_winner` into the root alone),
and the recommended move is `none` — no error is reported. -/
theorem c7_amended (f : Nat → Nat) (sq lg : ℚ → ℚ) (u : Bool) (fuel : Nat)
    (b : Board) (pl n k : Nat)
    (h : b.is_terminal = true ∨ n = 0) :
    run_mcts f sq lg u fuel b pl n k
      = some (b, Node.mk ((n : Int) * ((b.get_winner).getD 0)) n [], none) := by
  rcases h with ht | hz
  · unfold run_mcts
    rw [runSims_terminal f sq lg u fuel pl ht n (Node.mk 0 0 []) k]
    simp only [Node.wi, Node.ni, Node.children]
    rw [Int.zero_add, Nat.zero_add]
    rfl
  · subst hz
    unfold run_mcts
    simp only [runSims]
    have hz2 : ((0 : Nat) : Int) * ((b.get_winner).getD 0) = 0 := by simp
    rw [hz2]
    rfl

/-- C7 (witness): the amended theorem applied to the full board `B11full`
with budget 3 (the root accumulates three draws). -/
theorem c7_amended_witness :
    (B11full.is_terminal = true ∨ 3 = 0) ∧
      run_mcts cF cQ cQ false 5 B11full 1 3 0
        = some (B11full, Node.mk ((3 : Int) * ((B11full.get_winner).getD 0)) 3 [], none) :=
  ⟨Or.inl (by rfl), c7_amended cF cQ cQ false 5 B11full 1 3 0 (Or.inl (by rfl))⟩

/-! ## C8 — fully expanded nodes have exactly the legal moves as children -/

/-- C8: in any search, at every node of the resulting tree (`InTree` pairs
each node with the board position and mover it stands for), if the node is
fully expanded — the source's `untried_moves` filter comes up empty — then
the set of legal moves at its position coincides with the set of its
children's keys.  Hence the PMCGS in-tree pick, uniform over the current
legal moves, is a uniform pick among the existing children's moves. -/
theorem c8_fully_expanded (f : Nat → Nat) (sq lg : ℚ → ℚ) (u : Bool) (fuel : Nat)
    (b : Board) (pl n k : Nat) (b2 : Board) (root : Node) (mv : Option Nat)
    (hWF : WF b) (hg : gravity b)
    (h : run_mcts f sq lg u fuel b pl n k = some (b2, root, mv)) :
    ∀ (b3 : Board) (pl3 : Nat) (nd3 : Node), InTree b pl root b3 pl3 nd3 →
      (b3.get_legal_moves.filter (fun m => !(hasKey nd3.children m))).isEmpty = true →
      ∀ m, m ∈ b3.get_legal_moves ↔ m ∈ nd3.children.map Prod.fst := by
  unfold run_mcts at h
  split at h
  · exact absurd h (by simp)
  · rename_i bx rootx kx hrun
    have hout := runSims_ok f sq lg u fuel pl n b (Node.mk 0 0 []) k 0 (bx, rootx, kx)
      hWF hg (runInv_init b pl) hrun
    injection h with h
    rw [Prod.mk.injEq, Prod.mk.injEq] at h
    obtain ⟨hb, hr, hm⟩ := h
    have hTree : TreeOK b pl root := by
      rw [← hr]
      exact hout.2.1.2.1
    intro b3 pl3 nd3 hInT hempty m
    have hT3 := treeOK_inTree hInT hTree
    cases hT3 with
    | mk hnd hleg hch =>
      simp only [Node.children] at hempty ⊢
      rename_i w nn cs
      constructor
      · intro hml
        rw [List.isEmpty_iff, List.filter_eq_nil_iff] at hempty
        have hne := hempty m hml
        have hk : hasKey cs m = true := by
          rcases Bool.eq_false_or_eq_true (hasKey cs m) with ht | hf
          · exact ht
          · exfalso
            apply hne
            rw [hf]
            rfl
        obtain ⟨c, hc⟩ := hasKey_iff.mp hk
        rw [List.mem_map]
        exact ⟨(m, c), hc, rfl⟩
      · intro hmk
        rw [List.mem_map] at hmk
        obtain ⟨x, hx, he⟩ := hmk
        rw [← he]
        exact hleg x.1 x.2 hx

/-- C8 (witness): after two simulations on `B11` the root is fully
expanded (`untried` is empty), and move 1 is legal exactly as it is a
child key. -/
theorem c8_witness :
    WF B11 ∧ gravity B11 ∧
      run_mcts cF cQ cQ false 5 B11 1 2 0 = some (B11, rootW, some 1) ∧
      (B11.get_legal_moves.filter (fun m => !(hasKey rootW.children m))).isEmpty = true ∧
      (1 ∈ B11.get_legal_moves ↔ 1 ∈ rootW.children.map Prod.fst) :=
  ⟨by decide, by decide, by rfl, by rfl,
    c8_fully_expanded cF cQ cQ false 5 B11 1 2 0 B11 rootW (some 1)
      (by decide) (by decide) (by rfl) B11 1 rootW (InTree.refl B11 1 rootW) (by rfl) 1⟩

/-! ## C9 — the gravity invariant -/

/-- One board operation: a drop or an undo, as issued by any caller. -/
inductive BOp where
  | drop (col : Int) (p : Nat)
  | undo (col : Int)

def applyOp (b : Board) : BOp → Option Board
  | .drop c p => b.drop_in_slot c p
  | .undo c => b.undo_move c

/-- A sequence of drops and undos applied left to right. -/
def applyOps : Board → List BOp → Option Board
  | b, [] => some b
  | b, op :: rest =>
    match applyOp b op with
    | none => none
    | some b2 => applyOps b2 rest

/-- C9: starting from any well-formed gravity-sound board, after any
sequence of `drop_in_slot` and `undo_move` calls (in particular any
sequence of legal drops interleaved with LIFO undos) every column's
occupied cells form a contiguous run starting at row 0 — `gravity` states
exactly that each column's occupied cells are the rows below its height.
Instantiating `ops` with each prefix of a sequence gives the invariant
"at all times". -/
theorem c9_gravity_invariant (ops : List BOp) :
    ∀ (b b2 : Board), WF b → gravity b → applyOps b ops = some b2 →
      gravity b2 ∧ WF b2 := by
  induction ops with
  | nil =>
    intro b b2 hWF hg h
    simp only [applyOps] at h
    injection h with h
    subst h
    exact ⟨hg, hWF⟩
  | cons op rest ih =>
    intro b b2 hWF hg h
    simp only [applyOps] at h
    split at h
    · exact absurd h (by simp)
    · rename_i b3 hop
      cases op with
      | drop c p =>
        simp only [applyOp] at hop
        exact ih b3 b2 (WF_drop hWF hop) (gravity_drop hWF hg hop) h
      | undo c =>
        simp only [applyOp] at hop
        exact ih b3 b2 (WF_undo hWF hop) (gravity_undo hWF hg hop) h

/-- The board reached from `B13` by two legal drops and one LIFO undo. -/
def B13res : Board := ⟨1, 3, [[some 1, none, none]]⟩

/-- C9 (witness): a concrete drop/drop/undo sequence preserves gravity. -/
theorem c9_witness :
    WF B13 ∧ gravity B13 ∧
      applyOps B13 [BOp.drop 1 1, BOp.drop 1 2, BOp.undo 1] = some B13res ∧
      (gravity B13res ∧ WF B13res) :=
  ⟨by decide, by decide, by rfl,
    c9_gravity_invariant [BOp.drop 1 1, BOp.drop 1 2, BOp.undo 1] B13 B13res
      (by decide) (by decide) (by rfl)⟩

/-! ## C10 — column 0 wraps around to the rightmost column -/

/-- C10: calling `drop_in_slot` with column 0 resolves, through Python's
negative indexing of `col_index = -1`, to the rightmost column: it behaves
exactly like dropping in column `cols`, succeeds, and changes the board
(when the rightmost column is not full) — even though `is_slot_open 0` is
`false` and column 0 is never offered among the legal moves. -/
theorem c10_wraparound (b : Board) (p : Nat) (hWF : WF b)
    (hopen : b.is_slot_open ((b.cols : Nat) : Int) = true) :
    b.drop_in_slot 0 p = b.drop_in_slot ((b.cols : Nat) : Int) p ∧
    (∃ b2, b.drop_in_slot 0 p = some b2 ∧ b2 ≠ b) ∧
    b.is_slot_open 0 = false ∧ 0 ∉ b.get_legal_moves := by
  have hc1 : 1 ≤ b.cols := hWF.1
  have hrows : 0 < b.rows := hWF.2.1
  have hlen : b.board.length = b.cols := hWF.2.2.1
  have hcollen : (b.board.getD (b.cols - 1) []).length = b.rows :=
    hWF.2.2.2 (b.cols - 1) (by omega)
  have hpy0 : pyIdx b.board.length ((0 : Int) - 1) = some (b.cols - 1) := by
    unfold pyIdx
    rw [if_neg (by omega), if_pos (by omega)]
    congr 1
    omega
  have hpyc : pyIdx b.board.length (((b.cols : Nat) : Int) - 1) = some (b.cols - 1) :=
    pyIdx_nat_eq hc1 (by omega)
  have hopen2 : ((b.board.getD (b.cols - 1) []).getD (b.rows - 1) none).isNone = true := by
    rw [is_slot_open_eq hc1 (le_refl _)] at hopen
    exact hopen
  refine ⟨?_, ?_, ?_, ?_⟩
  · unfold Board.drop_in_slot
    rw [hpy0, hpyc]
  · have hfs : ((List.range b.rows).find?
        (fun i => ((b.board.getD (b.cols - 1) []).getD i none).isNone)).isSome = true := by
      rw [List.find?_isSome]
      exact ⟨b.rows - 1, List.mem_range.mpr (by omega), hopen2⟩
    obtain ⟨i, hfind⟩ := Option.isSome_iff_exists.mp hfs
    have hpred := List.find?_some hfind
    have hilt : i < b.rows := List.mem_range.mp (List.mem_of_find?_eq_some hfind)
    unfold Board.drop_in_slot
    rw [hpy0]
    refine ⟨_, rfl, ?_⟩
    intro he
    have hb : b.board.set (b.cols - 1)
        (dropCol b.rows (b.board.getD (b.cols - 1) []) p) = b.board :=
      congrArg Board.board he
    have hcol : dropCol b.rows (b.board.getD (b.cols - 1) []) p
        = b.board.getD (b.cols - 1) [] := by
      have h2 := congrArg (fun l => l.getD (b.cols - 1) ([] : List Cell)) hb
      dsimp only at h2
      rwa [getD_set_eq _ _ _ _ (by omega)] at h2
    unfold dropCol at hcol
    rw [hfind] at hcol
    have h3 := congrArg (fun l => l.getD i none) hcol
    dsimp only at h3
    rw [getD_set_eq _ _ _ _ (by omega)] at h3
    rw [← h3] at hpred
    simp at hpred
  · simp only [Board.is_slot_open]
    rw [if_pos (Or.inl (by norm_num))]
  · intro hmem
    unfold Board.get_legal_moves at hmem
    rw [List.mem_map] at hmem
    obtain ⟨c2, _, he⟩ := hmem
    omega

/-- C10 (witness): on `B11` (rightmost column open), dropping in column 0
matches dropping in column `cols`, changes the board, while `is_slot_open 0`
is false and 0 is not a legal move. -/
theorem c10_witness :
    WF B11 ∧ B11.is_slot_open ((B11.cols : Nat) : Int) = true ∧
      (B11.drop_in_slot 0 2 = B11.drop_in_slot ((B11.cols : Nat) : Int) 2 ∧
      (∃ b2, B11.drop_in_slot 0 2 = some b2 ∧ b2 ≠ B11) ∧
      B11.is_slot_open 0 = false ∧ 0 ∉ B11.get_legal_moves) :=
  ⟨by decide, by decide, c10_wraparound B11 2 (by decide) (by decide)⟩

end PA3
